import Mathlib

/-!
# Verification of the KiteConnect client core (src/connect.rs)

A shallow embedding of the session, dispatch, URL-building and
response-normalization logic of the KiteConnect Rust client, together with
theorems settling the frozen claims about it.

Modelling conventions:
* Rust strings are Lean `String`s; where byte-level behaviour matters
  (UTF-8, percent-encoding, hashing) we convert through `utf8EncChar`.
* `Result<T, E>` is `Except String T`; a Rust panic (`unwrap` on `None`)
  is an explicit `panic` outcome of the embedded operation.
* The HTTP transport (reqwest) is a parameter
  `net : HttpRequest → Except String HttpResponse`; a transport failure is
  `Except.error`.
* `HashMap` parameter maps are association lists in insertion order (the
  claims never depend on HashMap iteration order).
-/

set_option maxRecDepth 100000

namespace Kite

/-! ## Byte-level utilities -/

/-- Concatenation of a list of lists. -/
def catAll {α : Type} (xss : List (List α)) : List α := xss.foldr (· ++ ·) []

/-- UTF-8 encoding of a single character, as a list of byte values
(models how Rust `str` data is laid out in memory). -/
def utf8EncChar (c : Char) : List Nat :=
  if c.toNat < 128 then [c.toNat]
  else if c.toNat < 2048 then [192 + c.toNat / 64, 128 + c.toNat % 64]
  else if c.toNat < 65536 then
    [224 + c.toNat / 4096, 128 + (c.toNat / 64) % 64, 128 + c.toNat % 64]
  else
    [240 + c.toNat / 262144, 128 + (c.toNat / 4096) % 64,
     128 + (c.toNat / 64) % 64, 128 + c.toNat % 64]

/-- The UTF-8 bytes of a string (Rust `s.as_bytes()`). -/
def strBytes (s : String) : List Nat := catAll (s.data.map utf8EncChar)

/-! ## SHA-256 (the algorithm behind the `sha2` crate's `Sha256`)

Modelled from the spec: the repository's native checksum backend delegates
to the external `sha2` crate, whose code is not under `src/`; the spec
requires "byte-identical output to the standard SHA-256 algorithm", so the
FIPS 180-4 algorithm is implemented here directly over `Nat` words reduced
mod 2^32. -/

/-- Truncate to a 32-bit word. -/
def w32 (x : Nat) : Nat := x % 4294967296

/-- 32-bit right rotation. -/
def rotr (n x : Nat) : Nat := w32 ((x >>> n) ||| (x <<< (32 - n)))

def bigSigma0 (x : Nat) : Nat := rotr 2 x ^^^ rotr 13 x ^^^ rotr 22 x
def bigSigma1 (x : Nat) : Nat := rotr 6 x ^^^ rotr 11 x ^^^ rotr 25 x
def smallSigma0 (x : Nat) : Nat := rotr 7 x ^^^ rotr 18 x ^^^ (x >>> 3)
def smallSigma1 (x : Nat) : Nat := rotr 17 x ^^^ rotr 19 x ^^^ (x >>> 10)
def chFn (x y z : Nat) : Nat := (x &&& y) ^^^ ((x ^^^ 4294967295) &&& z)
def majFn (x y z : Nat) : Nat := (x &&& y) ^^^ (x &&& z) ^^^ (y &&& z)

/-- The 64 SHA-256 round constants. -/
def K256 : List Nat :=
  [1116352408, 1899447441, 3049323471, 3921009573, 961987163, 1508970993,
   2453635748, 2870763221, 3624381080, 310598401, 607225278, 1426881987,
   1925078388, 2162078206, 2614888103, 3248222580, 3835390401, 4022224774,
   264347078, 604807628, 770255983, 1249150122, 1555081692, 1996064986,
   2554220882, 2821834349, 2952996808, 3210313671, 3336571891, 3584528711,
   113926993, 338241895, 666307205, 773529912, 1294757372, 1396182291,
   1695183700, 1986661051, 2177026350, 2456956037, 2730485921, 2820302411,
   3259730800, 3345764771, 3516065817, 3600352804, 4094571909, 275423344,
   430227734, 506948616, 659060556, 883997877, 958139571, 1322822218,
   1537002063, 1747873779, 1955562222, 2024104815, 2227730452, 2361852424,
   2428436474, 2756734187, 3204031479, 3329325298]

/-- The working state: eight 32-bit hash words. -/
structure Hash8 where
  a : Nat
  b : Nat
  c : Nat
  d : Nat
  e : Nat
  f : Nat
  g : Nat
  h : Nat

/-- SHA-256 initial hash value. -/
def initH : Hash8 :=
  ⟨1779033703, 3144134277, 1013904242, 2773480762,
   1359893119, 2600822924, 528734635, 1541459225⟩

/-- Big-endian 32-bit words from a byte list (groups of four). -/
def toWords : List Nat → List Nat
  | b0 :: b1 :: b2 :: b3 :: rest => (((b0 * 256 + b1) * 256 + b2) * 256 + b3) :: toWords rest
  | _ => []

/-- One step of the message-schedule extension; the accumulator holds the
schedule so far, newest word first. -/
def schedStep (ws : List Nat) : List Nat :=
  w32 (smallSigma1 (ws.getD 1 0) + ws.getD 6 0 + smallSigma0 (ws.getD 14 0) + ws.getD 15 0) :: ws

/-- The 64-word message schedule of one block (given its first 16 words). -/
def buildSched (first16 : List Nat) : List Nat :=
  ((List.range 48).foldl (fun ws _ => schedStep ws) first16.reverse).reverse

/-- One SHA-256 round, consuming a (round constant, schedule word) pair. -/
def roundStep (st : Hash8) (kw : Nat × Nat) : Hash8 :=
  let t1 := w32 (st.h + bigSigma1 st.e + chFn st.e st.f st.g + kw.1 + kw.2)
  let t2 := w32 (bigSigma0 st.a + majFn st.a st.b st.c)
  ⟨w32 (t1 + t2), st.a, st.b, st.c, w32 (st.d + t1), st.e, st.f, st.g⟩

/-- Compress one 64-byte block into the running hash state. -/
def compressBlock (st : Hash8) (block : List Nat) : Hash8 :=
  let ws := buildSched (toWords block)
  let fin := (K256.zip ws).foldl roundStep st
  ⟨w32 (st.a + fin.a), w32 (st.b + fin.b), w32 (st.c + fin.c), w32 (st.d + fin.d),
   w32 (st.e + fin.e), w32 (st.f + fin.f), w32 (st.g + fin.g), w32 (st.h + fin.h)⟩

/-- The eight big-endian length bytes of a bit length. -/
def lenBytes8 (L : Nat) : List Nat :=
  [L / 72057594037927936 % 256, L / 281474976710656 % 256, L / 1099511627776 % 256,
   L / 4294967296 % 256, L / 16777216 % 256, L / 65536 % 256, L / 256 % 256, L % 256]

/-- SHA-256 padding: append 0x80, zero bytes, and the 64-bit message length. -/
def padMsg (bs : List Nat) : List Nat :=
  bs ++ 128 :: List.replicate ((119 - bs.length % 64) % 64) 0 ++ lenBytes8 (bs.length * 8)

/-- Split a byte list into 64-byte blocks (fuel-driven so it reduces
definitionally; the fuel is an upper bound on the number of blocks). -/
def chunks64Aux : Nat → List Nat → List (List Nat)
  | 0, _ => []
  | _, [] => []
  | fuel + 1, b :: bs => ((b :: bs).take 64) :: chunks64Aux fuel ((b :: bs).drop 64)

/-- Split a byte list into 64-byte blocks. -/
def chunks64 (bs : List Nat) : List (List Nat) := chunks64Aux bs.length bs

/-- The four big-endian bytes of a 32-bit word. -/
def wordBytes (w : Nat) : List Nat := [w / 16777216 % 256, w / 65536 % 256, w / 256 % 256, w % 256]

/-- SHA-256 digest of a byte list, as its 32 digest bytes. -/
def sha256 (msg : List Nat) : List Nat :=
  let fin := (chunks64 (padMsg msg)).foldl compressBlock initH
  wordBytes fin.a ++ wordBytes fin.b ++ wordBytes fin.c ++ wordBytes fin.d ++
  wordBytes fin.e ++ wordBytes fin.f ++ wordBytes fin.g ++ wordBytes fin.h

/-! ## Lowercase hex rendering (the `hex::encode` call) -/

/-- The sixteen lowercase hex digit characters. -/
def hexChars : List Char := "0123456789abcdef".data

/-- The lowercase hex digit for a nibble. -/
def hexDigitChar (n : Nat) : Char := hexChars.getD n '0'

/-- The two hex characters of one byte. -/
def hexByteChars (b : Nat) : List Char := [hexDigitChar (b / 16), hexDigitChar (b % 16)]

/-- Lowercase hex rendering of a byte list (Rust `hex::encode`). -/
def hexEncode (bs : List Nat) : String :=
  String.mk (catAll (bs.map hexByteChars))

/-! ## Character-list utilities (used by the URL, query and CSV models) -/

/-- Split a character list at every occurrence of a separator; always returns
at least one (possibly empty) segment, like Rust/URL-crate splitting. -/
def splitOnChar (sep : Char) : List Char → List (List Char)
  | [] => [[]]
  | c :: cs =>
    match splitOnChar sep cs with
    | [] => [[]]
    | s :: ss => if c = sep then [] :: s :: ss else (c :: s) :: ss

/-- Split at the first occurrence of a separator: the part before it and,
when the separator occurs, the part after it. -/
def splitFirst (sep : Char) : List Char → List Char × Option (List Char)
  | [] => ([], none)
  | c :: cs =>
    if c = sep then ([], some cs)
    else
      match splitFirst sep cs with
      | (pre, rest) => (c :: pre, rest)

/-- Strip a literal leading segment from a character list, if present. -/
def stripLead : List Char → List Char → Option (List Char)
  | [], rest => some rest
  | _ :: _, [] => none
  | p :: ps, c :: cs => if c = p then stripLead ps cs else none

/-- Drop one trailing carriage return, if present (CRLF line endings). -/
def stripCR (cs : List Char) : List Char :=
  if cs.getLast? = some '\x0d' then cs.dropLast else cs

/-! ## `application/x-www-form-urlencoded` query serialization

Modelled from the spec: `build_url` delegates query-pair serialization and
parsing to the external `url` crate (not under `src/`); the spec requires
order-preserving key/value pair serialization in the standard
form-urlencoded format, which is implemented here: safe bytes literal,
space as `+`, every other byte percent-encoded. -/

/-- Characters the form-urlencoded serializer leaves literal. -/
def formSafe (c : Char) : Bool :=
  c.isAlphanum || c = '*' || c = '-' || c = '.' || c = '_'

/-- The sixteen uppercase hex digit characters (percent escapes). -/
def hexUpperChars : List Char := "0123456789ABCDEF".data

/-- The uppercase hex digit for a nibble. -/
def hexUpperChar (n : Nat) : Char := hexUpperChars.getD n '0'

/-- The three characters of a percent escape for one byte. -/
def percentByteChars (b : Nat) : List Char := ['%', hexUpperChar (b / 16), hexUpperChar (b % 16)]

/-- Form-urlencode one character: safe characters literal, space as a plus
sign, everything else as percent escapes of its UTF-8 bytes. -/
def formEncodeChar (c : Char) : List Char :=
  if formSafe c then [c]
  else if c = ' ' then ['+']
  else catAll ((utf8EncChar c).map percentByteChars)

/-- Form-urlencode a string. -/
def formEncodeStr (s : String) : List Char := catAll (s.data.map formEncodeChar)

/-- The value of a hex-digit byte, if it is one. -/
def percentHexVal (b : Nat) : Option Nat :=
  if 48 ≤ b ∧ b ≤ 57 then some (b - 48)
  else if 65 ≤ b ∧ b ≤ 70 then some (b - 55)
  else if 97 ≤ b ∧ b ≤ 102 then some (b - 87)
  else none

/-- Percent-decoding over bytes: `+` becomes space, a well-formed percent
escape becomes its byte, anything else passes through (lenient, like the
form-urlencoded parser; on a malformed escape the three bytes pass
through unchanged — a simplification of the parser's re-examination of
the lookahead bytes, observable only on malformed escapes, which nothing
in the client ever produces). -/
def percentDecode : List Nat → List Nat
  | [] => []
  | b :: bs =>
    if b = 43 then 32 :: percentDecode bs
    else if b = 37 then
      match bs with
      | h1 :: h2 :: bs2 =>
        match percentHexVal h1, percentHexVal h2 with
        | some v1, some v2 => (v1 * 16 + v2) :: percentDecode bs2
        | _, _ => 37 :: h1 :: h2 :: percentDecode bs2
      | [h1] => [37, h1]
      | [] => [37]
    else b :: percentDecode bs

/-- The replacement character emitted for invalid UTF-8. -/
def repChar : Char := '�'

/-- One fuel-driven pass of lossy UTF-8 decoding (the fuel is an upper
bound on the number of decoded characters, so a fuel of at least the byte
count never runs out; on an invalid sequence one replacement character is
emitted and decoding resumes at the byte after the invalid prefix). -/
def utf8DecAux : Nat → List Nat → List Char
  | 0, _ => []
  | _ + 1, [] => []
  | fuel + 1, b :: bs =>
    if b < 128 then Char.ofNat b :: utf8DecAux fuel bs
    else if b < 192 then repChar :: utf8DecAux fuel bs
    else if b < 224 then
      match bs with
      | b1 :: bs1 =>
        if 128 ≤ b1 ∧ b1 < 192 then
          Char.ofNat ((b - 192) * 64 + (b1 - 128)) :: utf8DecAux fuel bs1
        else repChar :: utf8DecAux fuel bs
      | [] => [repChar]
    else if b < 240 then
      match bs with
      | b1 :: b2 :: bs2 =>
        if (128 ≤ b1 ∧ b1 < 192) ∧ (128 ≤ b2 ∧ b2 < 192) then
          Char.ofNat ((b - 224) * 4096 + (b1 - 128) * 64 + (b2 - 128)) :: utf8DecAux fuel bs2
        else repChar :: utf8DecAux fuel bs
      | _ => repChar :: utf8DecAux fuel bs
    else
      match bs with
      | b1 :: b2 :: b3 :: bs3 =>
        if (128 ≤ b1 ∧ b1 < 192) ∧ (128 ≤ b2 ∧ b2 < 192) ∧ (128 ≤ b3 ∧ b3 < 192) then
          Char.ofNat ((b - 240) * 262144 + (b1 - 128) * 4096 + (b2 - 128) * 64 + (b3 - 128)) ::
            utf8DecAux fuel bs3
        else repChar :: utf8DecAux fuel bs
      | _ => repChar :: utf8DecAux fuel bs

/-- Lossy UTF-8 decoding of a byte list (exact on valid UTF-8). -/
def utf8DecLossy (bs : List Nat) : List Char := utf8DecAux bs.length bs

/-- The UTF-8 bytes of a character list. -/
def charsBytes (cs : List Char) : List Nat := catAll (cs.map utf8EncChar)

/-- Decode one form-urlencoded component back to a string (percent-decode
the bytes, then lossy UTF-8 decoding). -/
def formDecodeStr (cs : List Char) : String :=
  String.mk (utf8DecLossy (percentDecode (charsBytes cs)))

/-- Serialize one query pair as `key=value`, both sides form-urlencoded. -/
def formEncodePair (p : String × String) : List Char :=
  formEncodeStr p.1 ++ '=' :: formEncodeStr p.2

/-- Join segments with a separator list between consecutive segments. -/
def joinSep {α : Type} (sep : List α) : List (List α) → List α
  | [] => []
  | [x] => x
  | x :: y :: rest => x ++ sep ++ joinSep sep (y :: rest)

/-- Serialize a pair list in order, separated by ampersands. -/
def serializePairs (ps : List (String × String)) : List Char :=
  joinSep ['&'] (ps.map formEncodePair)

/-- Parse one query segment into a decoded key/value pair (a segment with
no equals sign yields an empty value). -/
def parsePair (seg : List Char) : String × String :=
  match splitFirst '=' seg with
  | (k, v) => (formDecodeStr k, formDecodeStr (v.getD []))

/-- Parse a query string into its decoded pairs, in order, skipping empty
segments. -/
def parseQueryChars (q : List Char) : List (String × String) :=
  ((splitOnChar '&' q).filter (fun seg => !seg.isEmpty)).map parsePair

/-! ## URLs (the slice of the `url` crate that `build_url` exercises) -/

/-- A parsed URL: scheme, host, path (with leading slash) and raw query. -/
structure Url where
  scheme : String
  host : String
  path : String
  query : Option String
deriving DecidableEq

/-- Parse an absolute `https` URL string: host up to the first slash, then
path up to the first question mark (a fragment, after a hash sign, is
dropped). -/
def parseUrl (s : String) : Option Url :=
  match stripLead "https://".data s.data with
  | none => none
  | some rest =>
    match splitFirst '/' rest with
    | (h, none) => some ⟨"https", String.mk h, "/", none⟩
    | (h, some afterSlash) =>
      match splitFirst '#' afterSlash with
      | (beforeFrag, _) =>
        match splitFirst '?' beforeFrag with
        | (p, q) => some ⟨"https", String.mk h, String.mk ('/' :: p), q.map String.mk⟩

/-- The origin of a URL. -/
def Url.origin (u : Url) : String := u.scheme ++ "://" ++ u.host

/-- The decoded query pairs of a URL, in order. -/
def Url.queryPairs (u : Url) : List (String × String) :=
  match u.query with
  | none => []
  | some q => parseQueryChars q.data

/-- Append serialized pairs to the existing query (the
`query_pairs_mut().extend_pairs(..)` call). -/
def Url.extendQueryPairs (u : Url) (ps : List (String × String)) : Url :=
  let ser := serializePairs ps
  let newq : List Char :=
    match u.query with
    | none => ser
    | some q => if q.isEmpty then ser else q.data ++ '&' :: ser
  { u with query := some (String.mk newq) }

/-! ## JSON values (the slice of `serde_json` the client exercises)

Modelled from the spec: JSON decoding is delegated to the external
`serde_json` crate (not under `src/`). Numbers are kept as their lexemes
(the claims never read numeric values), and object member order is kept
as insertion order, per the spec's order-preserving record contract. -/

/-- A JSON value. -/
inductive Json where
  | null
  | bool (b : Bool)
  | num (raw : String)
  | str (s : String)
  | arr (elems : List Json)
  | obj (fields : List (String × Json))

/-- Indexing `value["key"]`: the member of an object, `null` otherwise
(serde_json's `Index` behaviour for string indices). -/
def Json.index (j : Json) (key : String) : Json :=
  match j with
  | .obj fields =>
    match fields.find? (fun p => p.1 == key) with
    | some p => p.2
    | none => Json.null
  | _ => Json.null

/-- `as_str()`: the string of a JSON string, `none` otherwise. -/
def Json.asStr : Json → Option String
  | .str s => some s
  | _ => none

/-- Skip JSON whitespace. -/
def skipWs : List Char → List Char
  | [] => []
  | c :: cs => if c = ' ' ∨ c = '\n' ∨ c = '\t' ∨ c = '\x0d' then skipWs cs else c :: cs

/-- Parse the body of a JSON string literal (after the opening quote),
returning the string and the input after the closing quote. -/
def parseStringBody : Nat → List Char → Except String (String × List Char)
  | 0, _ => .error "string fuel exhausted"
  | _ + 1, [] => .error "unterminated string"
  | fuel + 1, c :: cs =>
    if c = '"' then .ok ("", cs)
    else if c = '\\' then
      match cs with
      | [] => .error "unterminated escape"
      | e :: cs1 =>
        let ec : Option Char :=
          if e = '"' then some '"'
          else if e = '\\' then some '\\'
          else if e = '/' then some '/'
          else if e = 'n' then some '\n'
          else if e = 't' then some '\t'
          else if e = 'r' then some '\x0d'
          else if e = 'b' then some '\x08'
          else if e = 'f' then some '\x0c'
          else none
        match ec with
        | none => .error "unsupported escape"
        | some c2 =>
          match parseStringBody fuel cs1 with
          | .ok (s, rest) => .ok (String.mk (c2 :: s.data), rest)
          | .error msg => .error msg
    else
      match parseStringBody fuel cs with
      | .ok (s, rest) => .ok (String.mk (c :: s.data), rest)
      | .error msg => .error msg

/-- Is this a character of a number lexeme? -/
def isNumChar (c : Char) : Bool :=
  c.isDigit || c = '-' || c = '+' || c = '.' || c = 'e' || c = 'E'

/-- Take the longest leading run of number-lexeme characters. -/
def takeNum : List Char → List Char × List Char
  | [] => ([], [])
  | c :: cs =>
    if isNumChar c then
      match takeNum cs with
      | (a, b) => (c :: a, b)
    else ([], c :: cs)

mutual

/-- Parse one JSON value; fuel bounds the recursion depth. -/
def parseJsonVal : Nat → List Char → Except String (Json × List Char)
  | 0, _ => .error "fuel exhausted"
  | fuel + 1, cs =>
    match skipWs cs with
    | [] => .error "unexpected end of input"
    | c :: cs1 =>
      if c = '{' then
        match skipWs cs1 with
        | '}' :: r => .ok (.obj [], r)
        | _ =>
          match parseMembers fuel cs1 with
          | .ok (fs, r) => .ok (.obj fs, r)
          | .error msg => .error msg
      else if c = '[' then
        match skipWs cs1 with
        | ']' :: r => .ok (.arr [], r)
        | _ =>
          match parseElems fuel cs1 with
          | .ok (vs, r) => .ok (.arr vs, r)
          | .error msg => .error msg
      else if c = '"' then
        match parseStringBody (cs1.length + 1) cs1 with
        | .ok (s, rest) => .ok (.str s, rest)
        | .error msg => .error msg
      else if c = 't' then
        match stripLead "rue".data cs1 with
        | some rest => .ok (.bool true, rest)
        | none => .error "invalid literal"
      else if c = 'f' then
        match stripLead "alse".data cs1 with
        | some rest => .ok (.bool false, rest)
        | none => .error "invalid literal"
      else if c = 'n' then
        match stripLead "ull".data cs1 with
        | some rest => .ok (.null, rest)
        | none => .error "invalid literal"
      else if c.isDigit ∨ c = '-' then
        match takeNum (c :: cs1) with
        | (numCs, rest) => .ok (.num (String.mk numCs), rest)
      else .error "unexpected character"

/-- Parse the members of a JSON object (positioned before a key). -/
def parseMembers : Nat → List Char → Except String (List (String × Json) × List Char)
  | 0, _ => .error "fuel exhausted"
  | fuel + 1, cs =>
    match skipWs cs with
    | '"' :: cs1 =>
      match parseStringBody (cs1.length + 1) cs1 with
      | .error msg => .error msg
      | .ok (k, r1) =>
        match skipWs r1 with
        | ':' :: r2 =>
          match parseJsonVal fuel r2 with
          | .error msg => .error msg
          | .ok (v, r3) =>
            match skipWs r3 with
            | ',' :: r4 =>
              match parseMembers fuel r4 with
              | .error msg => .error msg
              | .ok (rest, r5) => .ok ((k, v) :: rest, r5)
            | '}' :: r4 => .ok ([(k, v)], r4)
            | _ => .error "expected comma or closing brace"
        | _ => .error "expected colon"
    | _ => .error "expected string key"

/-- Parse the elements of a JSON array (positioned before an element). -/
def parseElems : Nat → List Char → Except String (List Json × List Char)
  | 0, _ => .error "fuel exhausted"
  | fuel + 1, cs =>
    match parseJsonVal fuel cs with
    | .error msg => .error msg
    | .ok (v, r1) =>
      match skipWs r1 with
      | ',' :: r2 =>
        match parseElems fuel r2 with
        | .ok (vs, r3) => .ok (v :: vs, r3)
        | .error msg => .error msg
      | ']' :: r2 => .ok ([v], r2)
      | _ => .error "expected comma or closing bracket"

end

/-- Parse a complete JSON document (trailing whitespace allowed). -/
def Json.parse (s : String) : Except String Json :=
  match parseJsonVal (s.data.length + 1) s.data with
  | .error msg => .error msg
  | .ok (j, rest) => if skipWs rest = [] then .ok j else .error "trailing characters"

/-! ## The client and its HTTP layer (src/connect.rs) -/

/-- The fixed non-test base endpoint (`const URL` in connect.rs). -/
def baseURL : String := "https://api.kite.trade"

/-- The `KiteConnect` struct: the credential pair and the optional session
expiry hook. The `reqwest::Client` connection pool carries no semantic
state and is omitted. -/
structure KiteConnect where
  api_key : String
  access_token : String
  session_expiry_hook : Option (Unit → Unit)

/-- The byte slice `&path[1..]` (the paths passed in always start with an
ASCII slash, so dropping one byte is dropping one character). -/
def strTail (s : String) : String := String.mk (s.data.drop 1)

/-- `build_url`: format the base endpoint, a slash and the path minus its
first byte, parse the result, and append any query pairs. -/
def KiteConnect.build_url (_c : KiteConnect) (path : String)
    (param : Option (List (String × String))) : Url :=
  let u := (parseUrl (baseURL ++ "/" ++ strTail path)).getD ⟨"https", "", "/", none⟩
  match param with
  | none => u
  | some ps => u.extendQueryPairs ps

/-- The native `compute_checksum` backend: SHA-256 of the input's UTF-8
bytes, rendered as lowercase hex (`hex::encode`). -/
def compute_checksum (input : String) : String := hexEncode (sha256 (strBytes input))

/-- How `send_request` encodes the parameter map, by verb. -/
inductive ReqBody where
  | noBody
  | formBody (data : Option (List (String × String)))
  | jsonBody (data : Option (List (String × String)))
deriving DecidableEq

/-- An outgoing HTTP request as `send_request` hands it to reqwest. -/
structure HttpRequest where
  url : Url
  method : String
  headers : List (String × String)
  body : ReqBody
deriving DecidableEq

/-- An HTTP response: status code and body text. -/
structure HttpResponse where
  status : Nat
  body : String
deriving DecidableEq

/-- `StatusCode::is_success`: the 2xx range. -/
def is2xx (status : Nat) : Bool := 200 ≤ status && status < 300

/-- The transport (reqwest's actual network send): maps a request to a
response or a transport error. -/
def Net : Type := HttpRequest → Except String HttpResponse

/-- `send_request`: attach the three fixed headers, then build the request
with the verb-appropriate body encoding; unknown verbs are an error. -/
def KiteConnect.send_request (c : KiteConnect) (url : Url) (method : String)
    (data : Option (List (String × String))) : Except String HttpRequest :=
  let headers := [("XKiteVersion", "3"),
                  ("Authorization", "token " ++ c.api_key ++ ":" ++ c.access_token),
                  ("User-Agent", "Rust")]
  match method with
  | "GET" => .ok ⟨url, "GET", headers, .noBody⟩
  | "POST" => .ok ⟨url, "POST", headers, .formBody data⟩
  | "DELETE" => .ok ⟨url, "DELETE", headers, .jsonBody data⟩
  | "PUT" => .ok ⟨url, "PUT", headers, .formBody data⟩
  | _ => .error "Unknown method!"

/-- `raise_or_return_json`: on 2xx parse the body as JSON, otherwise fail
with the body text verbatim. -/
def KiteConnect.raise_or_return_json (_c : KiteConnect) (resp : HttpResponse) :
    Except String Json :=
  if is2xx resp.status then
    match Json.parse resp.body with
    | .ok j => .ok j
    | .error msg => .error ("Serialization failed: " ++ msg)
  else .error resp.body

/-! ## Session manager -/

/-- The parameter map `generate_session` POSTs: api_key, request_token and
the checksum of `api_key ++ request_token ++ api_secret`. -/
def sessionTokenParams (c : KiteConnect) (request_token api_secret : String) :
    List (String × String) :=
  let input := c.api_key ++ request_token ++ api_secret
  let checksum := compute_checksum input
  [("api_key", c.api_key), ("request_token", request_token), ("checksum", checksum)]

/-- The parameter map `renew_access_token` POSTs: api_key, access_token and
the checksum of `api_key ++ access_token ++ api_secret`. -/
def renewTokenParams (c : KiteConnect) (access_token api_secret : String) :
    List (String × String) :=
  let input := c.api_key ++ access_token ++ api_secret
  let checksum := compute_checksum input
  [("api_key", c.api_key), ("access_token", access_token), ("checksum", checksum)]

/-- The outcome of `generate_session`: a parsed body plus the updated
client, an error plus the (unchanged) client, or a Rust panic. -/
inductive SessionResult where
  | ok (json : Json) (client : KiteConnect)
  | err (msg : String) (client : KiteConnect)
  | panicked (client : KiteConnect)

/-- `generate_session`: checksum, POST to `/session/token`, and on 2xx
parse the body and install `data.access_token` via `set_access_token`;
the source unwraps `as_str()`, so a missing or non-string field panics. -/
def generate_session (c : KiteConnect) (request_token api_secret : String)
    (net : Net) : SessionResult :=
  let data := sessionTokenParams c request_token api_secret
  let url := c.build_url "/session/token" none
  match c.send_request url "POST" (some data) with
  | .error e => .err e c
  | .ok req =>
    match net req with
    | .error e => .err e c
    | .ok resp =>
      if is2xx resp.status then
        match Json.parse resp.body with
        | .error e => .err e c
        | .ok jsn =>
          match ((jsn.index "data").index "access_token").asStr with
          | some tok => .ok jsn { c with access_token := tok }
          | none => .panicked c
      else .err resp.body c

/-- `invalidate_access_token`: DELETE `/session/token` with the given
token; takes `&self`, so the client state is returned unchanged. -/
def invalidate_access_token (c : KiteConnect) (access_token : String) (net : Net) :
    Except String HttpResponse × KiteConnect :=
  let url := c.build_url "/session/token" none
  let data := [("access_token", access_token)]
  match c.send_request url "DELETE" (some data) with
  | .error e => (.error e, c)
  | .ok req => (net req, c)

/-- `invalidate_refresh_token`: DELETE `/session/refresh_token` with the
given token; takes `&self`, so the client state is returned unchanged. -/
def invalidate_refresh_token (c : KiteConnect) (refresh_token : String) (net : Net) :
    Except String HttpResponse × KiteConnect :=
  let url := c.build_url "/session/refresh_token" none
  let data := [("refresh_token", refresh_token)]
  match c.send_request url "DELETE" (some data) with
  | .error e => (.error e, c)
  | .ok req => (net req, c)

/-! ## Order endpoints involved in the claims -/

/-- `cancel_order`: DELETE `/orders/{variety}/{order_id}` with the
parameter map, then normalize the response. -/
def cancel_order (c : KiteConnect) (order_id variety : String)
    (parent_order_id : Option String) (net : Net) : Except String Json :=
  let params := [("order_id", order_id), ("variety", variety)] ++
    (match parent_order_id with
     | some p => [("parent_order_id", p)]
     | none => [])
  let url := c.build_url ("/orders/" ++ variety ++ "/" ++ order_id) none
  match c.send_request url "DELETE" (some params) with
  | .error e => .error e
  | .ok req =>
    match net req with
    | .error e => .error e
    | .ok resp => c.raise_or_return_json resp

/-- `exit_order`: delegates to `cancel_order` with the same arguments. -/
def exit_order (c : KiteConnect) (order_id variety : String)
    (parent_order_id : Option String) (net : Net) : Except String Json :=
  cancel_order c order_id variety parent_order_id net

/-! ## CSV instrument endpoints (the `csv` crate slice)

Modelled from the spec where the behaviour lives in external crates: the
`csv` crate (not under `src/`) parses a header-led comma-separated table
with CRLF or LF terminators, skips blank lines, and with its default
(non-flexible) configuration fails on a record whose field count differs
from the header's. The record maps are order-preserving per the spec. -/

/-- Insert into an association list: overwrite in place, else append
(order-preserving map insertion). -/
def insertAssoc (m : List (String × String)) (k v : String) : List (String × String) :=
  match m with
  | [] => [(k, v)]
  | (k0, v0) :: rest => if k0 = k then (k0, v) :: rest else (k0, v0) :: insertAssoc rest k v

/-- The record-building loop of `instruments`: for each field in order,
insert it under the header of the same index (fields beyond the header
are skipped). -/
def buildRecord (header fields : List String) : List (String × String) :=
  (header.zip fields).foldl (fun m p => insertAssoc m p.1 p.2) []

/-- Split a CSV body into its nonempty lines, dropping CR of CRLF. -/
def csvSplitRows (body : String) : List (List Char) :=
  ((splitOnChar '\n' body.data).map stripCR).filter (fun l => !l.isEmpty)

/-- Split one CSV line into its fields. -/
def csvFields (line : List Char) : List String :=
  (splitOnChar ',' line).map String.mk

/-- The record loop of `instruments`: each line must have exactly the
header's field count (default non-flexible reader, which otherwise yields
an unequal-lengths error that `?` propagates) and yields one record. -/
def csvRecordLoop (header : List String) : List (List Char) →
    Except String (List (List (String × String)))
  | [] => .ok []
  | line :: rest =>
    let fields := csvFields line
    if fields.length = header.length then
      match csvRecordLoop header rest with
      | .ok recs => .ok (buildRecord header fields :: recs)
      | .error e => .error e
    else .error "CSV error: record length mismatch"

/-- Parse a CSV body: first line is the header, later lines are records. -/
def parseCsvRecords (body : String) : Except String (List (List (String × String))) :=
  match csvSplitRows body with
  | [] => .ok []
  | h :: rows => csvRecordLoop (csvFields h) rows

/-- The CSV-to-JSON conversion of `instruments`/`mf_instruments`: one JSON
object per record, values as strings, collected into a JSON array. -/
def csvToJson (body : String) : Except String Json :=
  match parseCsvRecords body with
  | .ok recs => .ok (.arr (recs.map (fun r => .obj (r.map (fun p => (p.1, Json.str p.2))))))
  | .error e => .error e

/-- `instruments` (native): GET the instrument list and convert the CSV
body (the status is not checked by the source). -/
def instruments (c : KiteConnect) (exchange : Option String) (net : Net) :
    Except String Json :=
  let url := match exchange with
    | some e => c.build_url ("/instruments/" ++ e) none
    | none => c.build_url "/instruments" none
  match c.send_request url "GET" none with
  | .error e => .error e
  | .ok req =>
    match net req with
    | .error e => .error e
    | .ok resp => csvToJson resp.body

/-- `mf_instruments` (native): GET the mutual-fund instrument list and
convert the CSV body. -/
def mf_instruments (c : KiteConnect) (net : Net) : Except String Json :=
  let url := c.build_url "/mf/instruments" none
  match c.send_request url "GET" none with
  | .error e => .error e
  | .ok req =>
    match net req with
    | .error e => .error e
    | .ok resp => csvToJson resp.body

/-- Does an `Except` hold a success? -/
def exOk {α : Type} : Except String α → Bool
  | .ok _ => true
  | .error _ => false

/-! ## Predicates used to state the claims -/

/-- URL-path-safe characters: kept verbatim by the URL parser (no percent
re-encoding, no query/fragment/dot-segment meaning). -/
def pathSafeChar (c : Char) : Bool :=
  c.isAlphanum || c = '/' || c = '-' || c = '_'

/-- A CSV cell that needs no quoting and survives the line/field split:
nonempty, and free of separators, line breaks and quotes. -/
def cleanField (f : String) : Prop :=
  f ≠ "" ∧ ∀ ch ∈ f.data, ch ≠ ',' ∧ ch ≠ '\n' ∧ ch ≠ '\x0d' ∧ ch ≠ '"'

instance (f : String) : Decidable (cleanField f) := by
  unfold cleanField
  infer_instance

/-- The character list of one CSV line: fields joined by commas. -/
def rowLine (r : List String) : List Char := joinSep [','] (r.map String.data)

/-- The CSV text of a table: rows joined by LF, fields joined by commas. -/
def csvBodyOf (tbl : List (List String)) : String :=
  String.mk (joinSep ['\n'] (tbl.map rowLine))

/-- The constant-responder transport: every request gets this response. -/
def constNet (resp : HttpResponse) : Net := fun _ => .ok resp

/-- The failing transport: every request fails with this message. -/
def failNet (e : String) : Net := fun _ => .error e

/-- The three headers `send_request` attaches. -/
def kiteHeaders (c : KiteConnect) : List (String × String) :=
  [("XKiteVersion", "3"),
   ("Authorization", "token " ++ c.api_key ++ ":" ++ c.access_token),
   ("User-Agent", "Rust")]

/-!
# Theorems

First the supporting lemmas, then one theorem per claim (with a witness
where the claim theorem carries hypotheses).
-/

/-- The SHA-256 model matches the FIPS test vector for the empty message. -/
theorem sha256_empty_vector :
    hexEncode (sha256 (strBytes "")) =
      "e3b0c44298fc1c149afbf4c8996fb92427ae41e4649b934ca495991b7852b855" := by
  decide

/-- The SHA-256 model matches the FIPS test vector for "abc". -/
theorem sha256_abc_vector :
    hexEncode (sha256 (strBytes "abc")) =
      "ba7816bf8f01cfea414140de5dae2223b00361a396177a9cb410ff61f20015ad" := by
  decide

/-- C10: for all arguments (order id, variety, parent order id) and any
transport, `exit_order` is extensionally equal to `cancel_order`: it
issues the identical DELETE request to `/orders/{variety}/{order_id}`
with the identical parameter map and returns the identical result. -/
theorem exit_order_eq_cancel_order :
    ∀ (c : KiteConnect) (order_id variety : String) (parent_order_id : Option String)
      (net : Net),
      exit_order c order_id variety parent_order_id net =
        cancel_order c order_id variety parent_order_id net := by
  intro c order_id variety parent_order_id net
  rfl

/-- C9: `invalidate_access_token` and `invalidate_refresh_token` leave all
local client state unchanged — for every argument and every transport
outcome, the stored api_key, access_token and session expiry hook after
the call equal their values before the call. -/
theorem invalidate_tokens_leave_state_unchanged :
    ∀ (c : KiteConnect) (tok : String) (net : Net),
      (invalidate_access_token c tok net).2 = c ∧
      (invalidate_refresh_token c tok net).2 = c ∧
      (invalidate_access_token c tok net).2.api_key = c.api_key ∧
      (invalidate_access_token c tok net).2.access_token = c.access_token ∧
      (invalidate_access_token c tok net).2.session_expiry_hook = c.session_expiry_hook ∧
      (invalidate_refresh_token c tok net).2.api_key = c.api_key ∧
      (invalidate_refresh_token c tok net).2.access_token = c.access_token ∧
      (invalidate_refresh_token c tok net).2.session_expiry_hook = c.session_expiry_hook := by
  intro c tok net
  exact ⟨rfl, rfl, rfl, rfl, rfl, rfl, rfl, rfl⟩

/-- C3: every dispatched request carries exactly the three headers — the
protocol-version marker "3", `Authorization: token <api_key>:<access_token>`
from the credentials held at dispatch time, and the client identifier —
and the body is encoded by verb: GET none, POST and PUT the form-encoded
parameter map, DELETE the JSON-encoded parameter map. -/
theorem send_request_headers_and_encodings :
    ∀ (c : KiteConnect) (url : Url) (data : Option (List (String × String))),
      kiteHeaders c =
        [("XKiteVersion", "3"),
         ("Authorization", "token " ++ c.api_key ++ ":" ++ c.access_token),
         ("User-Agent", "Rust")] ∧
      (kiteHeaders c).length = 3 ∧
      c.send_request url "GET" data = .ok ⟨url, "GET", kiteHeaders c, .noBody⟩ ∧
      c.send_request url "POST" data = .ok ⟨url, "POST", kiteHeaders c, .formBody data⟩ ∧
      c.send_request url "PUT" data = .ok ⟨url, "PUT", kiteHeaders c, .formBody data⟩ ∧
      c.send_request url "DELETE" data = .ok ⟨url, "DELETE", kiteHeaders c, .jsonBody data⟩ := by
  intro c url data
  exact ⟨rfl, rfl, rfl, rfl, rfl, rfl⟩

/-- C7: for every non-2xx response, the JSON-mode normalizer fails with an
error whose message is exactly the response body text, unparsed and
untruncated. -/
theorem raise_or_return_json_error_is_body :
    ∀ (c : KiteConnect) (resp : HttpResponse), is2xx resp.status = false →
      c.raise_or_return_json resp = .error resp.body := by
  intro c resp h
  unfold KiteConnect.raise_or_return_json
  simp [h]

/-- C7 witness: a 403 response with body "invalid api key" fails with the
message "invalid api key", character for character. -/
theorem raise_or_return_json_error_is_body_witness :
    KiteConnect.raise_or_return_json ⟨"key", "token", none⟩ ⟨403, "invalid api key"⟩ =
      .error "invalid api key" := by
  exact raise_or_return_json_error_is_body ⟨"key", "token", none⟩ ⟨403, "invalid api key"⟩
    (by decide)

/-- C5 is a code bug: at a 2xx response whose body is valid JSON but lacks
a string `data.access_token` (failing input: status 200, body
`\x7b"data":\x7b\x7d\x7d`), `generate_session` panics — the source unwraps
`as_str()` on `None` — instead of returning a decode error as its own
documentation ("Returns an error if … Response parsing fails") states.
The stored token is untouched at the panic point. -/
theorem generate_session_panics_on_missing_token :
    generate_session ⟨"key", "old_token", none⟩ "rt" "secret"
      (constNet ⟨200, "\x7b\"data\":\x7b\x7d\x7d"⟩) =
      .panicked ⟨"key", "old_token", none⟩ := by
  rfl

/-- C1: for every 2xx response whose body decodes to JSON with a string
`data.access_token`, `generate_session` stores exactly that token and
returns the full parsed JSON; for every non-2xx response and every
transport failure, the client (in particular its stored access token) is
exactly what it was before the call and the error is propagated. -/
theorem generate_session_installs_or_preserves :
    ∀ (c : KiteConnect) (request_token api_secret : String),
      (∀ (resp : HttpResponse) (j : Json) (tok : String),
        is2xx resp.status = true →
        Json.parse resp.body = .ok j →
        ((j.index "data").index "access_token").asStr = some tok →
        generate_session c request_token api_secret (constNet resp) =
          .ok j { c with access_token := tok }) ∧
      (∀ resp : HttpResponse,
        is2xx resp.status = false →
        generate_session c request_token api_secret (constNet resp) = .err resp.body c) ∧
      (∀ e : String,
        generate_session c request_token api_secret (failNet e) = .err e c) := by
  intro c request_token api_secret
  refine ⟨?_, ?_, ?_⟩
  · intro resp j tok h2 hp ht
    show (if is2xx resp.status then
            match Json.parse resp.body with
            | .error e => SessionResult.err e c
            | .ok jsn =>
              match ((jsn.index "data").index "access_token").asStr with
              | some tok2 => SessionResult.ok jsn { c with access_token := tok2 }
              | none => SessionResult.panicked c
          else SessionResult.err resp.body c) =
        SessionResult.ok j { c with access_token := tok }
    simp [h2, hp, ht]
  · intro resp h2
    show (if is2xx resp.status then
            match Json.parse resp.body with
            | .error e => SessionResult.err e c
            | .ok jsn =>
              match ((jsn.index "data").index "access_token").asStr with
              | some tok2 => SessionResult.ok jsn { c with access_token := tok2 }
              | none => SessionResult.panicked c
          else SessionResult.err resp.body c) = SessionResult.err resp.body c
    simp [h2]
  · intro e
    rfl

/-- C1 witness: a 200 response installing "new_token" and returning the
parsed body, a 403 response propagated with the client unchanged, and a
transport failure propagated with the client unchanged. -/
theorem generate_session_installs_or_preserves_witness :
    generate_session ⟨"key", "old_token", none⟩ "rt" "secret"
        (constNet ⟨200, "\x7b\"data\":\x7b\"access_token\":\"new_token\"\x7d\x7d"⟩) =
      .ok (Json.obj [("data", Json.obj [("access_token", Json.str "new_token")])])
        ⟨"key", "new_token", none⟩ ∧
    generate_session ⟨"key", "old_token", none⟩ "rt" "secret"
        (constNet ⟨403, "api_key or request_token is invalid"⟩) =
      .err "api_key or request_token is invalid" ⟨"key", "old_token", none⟩ ∧
    generate_session ⟨"key", "old_token", none⟩ "rt" "secret" (failNet "connection refused") =
      .err "connection refused" ⟨"key", "old_token", none⟩ := by
  refine ⟨?_, ?_, ?_⟩
  · exact (generate_session_installs_or_preserves ⟨"key", "old_token", none⟩ "rt" "secret").1
      ⟨200, "\x7b\"data\":\x7b\"access_token\":\"new_token\"\x7d\x7d"⟩
      (Json.obj [("data", Json.obj [("access_token", Json.str "new_token")])])
      "new_token" (by decide) (by rfl) (by rfl)
  · exact (generate_session_installs_or_preserves ⟨"key", "old_token", none⟩ "rt" "secret").2.1
      ⟨403, "api_key or request_token is invalid"⟩ (by decide)
  · exact (generate_session_installs_or_preserves ⟨"key", "old_token", none⟩ "rt" "secret").2.2
      "connection refused"

/-- Unfolding `catAll` over a cons. -/
theorem catAll_cons {α : Type} (x : List α) (xs : List (List α)) :
    catAll (x :: xs) = x ++ catAll xs := rfl

/-- Each byte contributes exactly two hex characters. -/
theorem length_catAll_hexBytes :
    ∀ bs : List Nat, (catAll (bs.map hexByteChars)).length = 2 * bs.length := by
  intro bs
  induction bs with
  | nil => rfl
  | cons b rest ih =>
    simp only [List.map_cons, catAll_cons, List.length_append, ih, List.length_cons]
    simp [hexByteChars]
    omega

/-- A SHA-256 digest is 32 bytes. -/
theorem length_sha256 : ∀ msg : List Nat, (sha256 msg).length = 32 := by
  intro msg
  simp [sha256, wordBytes]

/-- Hex rendering doubles the length. -/
theorem length_hexEncode : ∀ bs : List Nat, (hexEncode bs).length = 2 * bs.length := by
  intro bs
  show (catAll (bs.map hexByteChars)).length = 2 * bs.length
  exact length_catAll_hexBytes bs

/-- Membership in a concatenation comes from membership in a part. -/
theorem mem_catAll {α : Type} :
    ∀ (xss : List (List α)) (a : α), a ∈ catAll xss → ∃ xs ∈ xss, a ∈ xs := by
  intro xss a
  induction xss with
  | nil => intro h; cases h
  | cons x rest ih =>
    intro h
    rw [catAll_cons, List.mem_append] at h
    rcases h with h | h
    · exact ⟨x, List.mem_cons_self x rest, h⟩
    · rcases ih h with ⟨xs, hxs, ha⟩
      exact ⟨xs, List.mem_cons_of_mem x hxs, ha⟩

/-- Every output of `hexDigitChar` is one of the sixteen lowercase hex
digits. -/
theorem hexDigitChar_mem : ∀ n : Nat, hexDigitChar n ∈ hexChars := by
  intro n
  rcases Nat.lt_or_ge n 16 with h | h
  · interval_cases n <;> decide
  · have hlen : hexChars.length ≤ n := by
      simp only [hexChars, List.length_cons, List.length_nil]
      omega
    unfold hexDigitChar
    rw [List.getD_eq_default _ _ hlen]
    decide

/-- All characters of a hex rendering are lowercase hex digits. -/
theorem mem_hexChars_of_mem_hexEncode :
    ∀ (bs : List Nat) (ch : Char), ch ∈ (hexEncode bs).data → ch ∈ hexChars := by
  intro bs ch hch
  have hch2 : ch ∈ catAll (bs.map hexByteChars) := hch
  rcases mem_catAll _ _ hch2 with ⟨xs, hxs, ha⟩
  rcases List.mem_map.mp hxs with ⟨b, _, rfl⟩
  simp only [hexByteChars, List.mem_cons, List.not_mem_nil, or_false] at ha
  rcases ha with rfl | rfl
  · exact hexDigitChar_mem _
  · exact hexDigitChar_mem _

/-- C4: the checksum `generate_session` sends (and, with the access token
in place of the request token, the one `renew_access_token` sends) is the
SHA-256 digest of `api_key ++ token ++ api_secret` — ordered
concatenation, no delimiter — rendered as a 64-character lowercase
hexadecimal string. (The `sha256` model is pinned to the standard
algorithm by the FIPS test vectors above.) -/
theorem session_checksum_is_sha256_hex :
    ∀ (c : KiteConnect) (request_token access_tok api_secret : String),
      sessionTokenParams c request_token api_secret =
        [("api_key", c.api_key), ("request_token", request_token),
         ("checksum", hexEncode (sha256 (strBytes (c.api_key ++ request_token ++ api_secret))))] ∧
      renewTokenParams c access_tok api_secret =
        [("api_key", c.api_key), ("access_token", access_tok),
         ("checksum", hexEncode (sha256 (strBytes (c.api_key ++ access_tok ++ api_secret))))] ∧
      (compute_checksum (c.api_key ++ request_token ++ api_secret)).length = 64 ∧
      (∀ ch ∈ (compute_checksum (c.api_key ++ request_token ++ api_secret)).data,
        ch ∈ hexChars) := by
  intro c request_token access_tok api_secret
  refine ⟨rfl, rfl, ?_, ?_⟩
  · show (hexEncode (sha256 (strBytes (c.api_key ++ request_token ++ api_secret)))).length = 64
    rw [length_hexEncode, length_sha256]
  · intro ch hch
    exact mem_hexChars_of_mem_hexEncode _ _ hch

/-! ### CSV tabular-mode lemmas -/

/-- Rebuilding a string from its characters is the identity. -/
theorem mkData : ∀ s : String, String.mk s.data = s := by
  intro s
  cases s
  rfl

/-- A nonempty string has a nonempty character list. -/
theorem data_ne_nil_of_ne_empty : ∀ s : String, s ≠ "" → s.data ≠ [] := by
  intro s hs hdata
  apply hs
  rw [← mkData s, hdata]

/-- Mapping a function that fixes every member is the identity. -/
theorem map_eq_self_of {α : Type} (f : α → α) :
    ∀ l : List α, (∀ x ∈ l, f x = x) → l.map f = l := by
  intro l
  induction l with
  | nil => intro _; rfl
  | cons a rest ih =>
    intro h
    rw [List.map_cons, h a (List.mem_cons_self a rest),
      ih (fun x hx => h x (List.mem_cons_of_mem a hx))]

/-- Filtering with a predicate every member satisfies is the identity. -/
theorem filter_eq_self_of {α : Type} (p : α → Bool) :
    ∀ l : List α, (∀ x ∈ l, p x = true) → l.filter p = l := by
  intro l
  induction l with
  | nil => intro _; rfl
  | cons a rest ih =>
    intro h
    rw [List.filter_cons_of_pos (h a (List.mem_cons_self a rest)),
      ih (fun x hx => h x (List.mem_cons_of_mem a hx))]

/-- Splitting always yields at least one segment. -/
theorem splitOnChar_ne_nil : ∀ (sep : Char) (cs : List Char), splitOnChar sep cs ≠ [] := by
  intro sep cs
  induction cs with
  | nil => exact fun h => List.noConfusion h
  | cons c rest ih =>
    simp only [splitOnChar]
    cases h : splitOnChar sep rest with
    | nil => exact fun h2 => List.noConfusion h2
    | cons s ss => by_cases hc : c = sep <;> simp [hc]

/-- A list free of the separator splits into itself alone. -/
theorem splitOnChar_of_not_mem :
    ∀ (sep : Char) (cs : List Char), sep ∉ cs → splitOnChar sep cs = [cs] := by
  intro sep cs
  induction cs with
  | nil => intro _; rfl
  | cons c rest ih =>
    intro h
    have hc : ¬c = sep := fun hh => h (hh ▸ List.mem_cons_self c rest)
    have hrest : sep ∉ rest := fun hh => h (List.mem_cons_of_mem c hh)
    simp only [splitOnChar, ih hrest]
    simp [hc]

/-- Splitting a list that starts with a separator-free segment followed by
the separator peels off that segment. -/
theorem splitOnChar_append_sep :
    ∀ (sep : Char) (x t : List Char), sep ∉ x →
      splitOnChar sep (x ++ sep :: t) = x :: splitOnChar sep t := by
  intro sep x
  induction x with
  | nil =>
    intro t _
    simp only [List.nil_append, splitOnChar]
    cases h : splitOnChar sep t with
    | nil => exact absurd h (splitOnChar_ne_nil sep t)
    | cons s ss => simp
  | cons c x ih =>
    intro t h
    have hc : ¬c = sep := fun hh => h (hh ▸ List.mem_cons_self c x)
    have hx : sep ∉ x := fun hh => h (List.mem_cons_of_mem c hh)
    rw [List.cons_append]
    simp only [splitOnChar]
    rw [ih t hx]
    simp [hc]

/-- Unfolding `joinSep` over two or more segments. -/
theorem joinSep_cons_cons {α : Type} (sep : List α) (x y : List α) (rest : List (List α)) :
    joinSep sep (x :: y :: rest) = x ++ sep ++ joinSep sep (y :: rest) := rfl

/-- Splitting inverts joining when no segment contains the separator. -/
theorem splitOnChar_joinSep :
    ∀ (sep : Char) (segs : List (List Char)), segs ≠ [] →
      (∀ s ∈ segs, sep ∉ s) →
      splitOnChar sep (joinSep [sep] segs) = segs := by
  intro sep segs
  induction segs with
  | nil => intro h; exact absurd rfl h
  | cons x rest ih =>
    intro _ hmem
    cases rest with
    | nil =>
      exact splitOnChar_of_not_mem sep x (hmem x (List.mem_cons_self x []))
    | cons y rest2 =>
      rw [joinSep_cons_cons]
      have hx : sep ∉ x := hmem x (List.mem_cons_self x (y :: rest2))
      have : x ++ [sep] ++ joinSep [sep] (y :: rest2) =
          x ++ sep :: joinSep [sep] (y :: rest2) := by simp
      rw [this, splitOnChar_append_sep sep x _ hx,
        ih (by simp) (fun s hs => hmem s (List.mem_cons_of_mem x hs))]

/-- A member of a join is the separator or a member of some segment. -/
theorem mem_joinSep {α : Type} :
    ∀ (sep : List α) (xss : List (List α)) (a : α),
      a ∈ joinSep sep xss → a ∈ sep ∨ ∃ xs ∈ xss, a ∈ xs := by
  intro sep xss
  induction xss with
  | nil => intro a h; cases h
  | cons x rest ih =>
    intro a h
    cases rest with
    | nil =>
      exact Or.inr ⟨x, List.mem_cons_self x [], h⟩
    | cons y rest2 =>
      rw [joinSep_cons_cons, List.append_assoc, List.mem_append] at h
      rcases h with h | h
      · exact Or.inr ⟨x, List.mem_cons_self x (y :: rest2), h⟩
      · rw [List.mem_append] at h
        rcases h with h | h
        · exact Or.inl h
        · rcases ih a h with h2 | ⟨xs, hxs, ha⟩
          · exact Or.inl h2
          · exact Or.inr ⟨xs, List.mem_cons_of_mem x hxs, ha⟩

/-- The last element of a list is a member of it. -/
theorem mem_of_getLastQ : ∀ (cs : List Char) (c : Char), cs.getLast? = some c → c ∈ cs := by
  intro cs
  induction cs with
  | nil => intro c h; cases h
  | cons a rest ih =>
    intro c h
    cases rest with
    | nil =>
      simp only [List.getLast?_singleton, Option.some.injEq] at h
      simp [h]
    | cons b rest2 =>
      rw [List.getLast?_cons_cons] at h
      exact List.mem_cons_of_mem a (ih c h)

/-- A line without a carriage return is unchanged by `stripCR`. -/
theorem stripCR_of_not_mem : ∀ cs : List Char, '\x0d' ∉ cs → stripCR cs = cs := by
  intro cs h
  unfold stripCR
  cases hl : cs.getLast? with
  | none => simp
  | some c =>
    by_cases hc : c = '\x0d'
    · exact absurd (mem_of_getLastQ cs c hl) (hc ▸ h)
    · simp [hc]

/-- Characters of a clean row's line are commas or characters of its
fields. -/
theorem rowLine_chars :
    ∀ (r : List String) (ch : Char), ch ∈ rowLine r →
      ch = ',' ∨ ∃ f ∈ r, ch ∈ f.data := by
  intro r ch h
  rcases mem_joinSep [','] (r.map String.data) ch h with h2 | ⟨xs, hxs, ha⟩
  · simp only [List.mem_singleton] at h2
    exact Or.inl h2
  · rcases List.mem_map.mp hxs with ⟨f, hf, rfl⟩
    exact Or.inr ⟨f, hf, ha⟩

/-- A clean nonempty row yields a nonempty line. -/
theorem rowLine_ne_nil :
    ∀ r : List String, r ≠ [] → (∀ f ∈ r, cleanField f) → rowLine r ≠ [] := by
  intro r hr hclean
  cases r with
  | nil => exact absurd rfl hr
  | cons f rest =>
    cases rest with
    | nil =>
      have : rowLine [f] = f.data := rfl
      rw [this]
      exact data_ne_nil_of_ne_empty f (hclean f (List.mem_cons_self f [])).1
    | cons g rest2 =>
      rw [rowLine, List.map_cons, List.map_cons, joinSep_cons_cons]
      simp

/-- Splitting a clean row's line recovers exactly its fields. -/
theorem csvFields_rowLine :
    ∀ r : List String, r ≠ [] → (∀ f ∈ r, cleanField f) →
      csvFields (rowLine r) = r := by
  intro r hr hclean
  unfold csvFields rowLine
  rw [splitOnChar_joinSep ',' (r.map String.data)
    (by simpa using hr)
    (by
      intro s hs hmem
      rcases List.mem_map.mp hs with ⟨f, hf, rfl⟩
      exact ((hclean f hf).2 ',' hmem).1 rfl)]
  rw [List.map_map]
  exact map_eq_self_of _ r (fun s _ => mkData s)

/-- Splitting the CSV body of a clean table recovers exactly its lines. -/
theorem csvSplitRows_csvBodyOf :
    ∀ tbl : List (List String), tbl ≠ [] →
      (∀ r ∈ tbl, r ≠ [] ∧ ∀ f ∈ r, cleanField f) →
      csvSplitRows (csvBodyOf tbl) = tbl.map rowLine := by
  intro tbl htbl hclean
  unfold csvSplitRows csvBodyOf
  have hdata : (String.mk (joinSep ['\n'] (tbl.map rowLine))).data =
      joinSep ['\n'] (tbl.map rowLine) := rfl
  rw [hdata]
  have hnomem : ∀ s ∈ tbl.map rowLine, '\n' ∉ s := by
    intro s hs hmem
    rcases List.mem_map.mp hs with ⟨r, hr, rfl⟩
    rcases rowLine_chars r '\n' hmem with h | ⟨f, hf, hch⟩
    · cases h
    · exact (((hclean r hr).2 f hf).2 '\n' hch).2.1 rfl
  rw [splitOnChar_joinSep '\n' (tbl.map rowLine) (by simpa using htbl) hnomem]
  have hstrip : (tbl.map rowLine).map stripCR = tbl.map rowLine := by
    apply map_eq_self_of
    intro s hs
    apply stripCR_of_not_mem
    intro hmem
    rcases List.mem_map.mp hs with ⟨r, hr, rfl⟩
    rcases rowLine_chars r '\x0d' hmem with h | ⟨f, hf, hch⟩
    · cases h
    · exact (((hclean r hr).2 f hf).2 '\x0d' hch).2.2.1 rfl
  rw [hstrip]
  apply filter_eq_self_of
  intro s hs
  rcases List.mem_map.mp hs with ⟨r, hr, rfl⟩
  have hne := rowLine_ne_nil r (hclean r hr).1 (hclean r hr).2
  cases hcase : rowLine r with
  | nil => exact absurd hcase hne
  | cons a b => rfl

/-- Inserting a fresh key appends it at the end. -/
theorem insertAssoc_of_not_mem :
    ∀ (m : List (String × String)) (k v : String), k ∉ m.map Prod.fst →
      insertAssoc m k v = m ++ [(k, v)] := by
  intro m k v
  induction m with
  | nil => intro _; rfl
  | cons p rest ih =>
    intro h
    obtain ⟨k0, v0⟩ := p
    simp only [List.map_cons, List.mem_cons, not_or] at h
    obtain ⟨h1, h2⟩ := h
    have hk0 : ¬k0 = k := fun hh => h1 hh.symm
    simp [insertAssoc, hk0, ih h2]

/-- Folding fresh-keyed insertions appends the pairs in order. -/
theorem foldl_insertAssoc :
    ∀ (ps acc : List (String × String)),
      (acc.map Prod.fst ++ ps.map Prod.fst).Nodup →
      ps.foldl (fun m p => insertAssoc m p.1 p.2) acc = acc ++ ps := by
  intro ps
  induction ps with
  | nil => intro acc _; simp
  | cons p rest ih =>
    intro acc h
    obtain ⟨k, v⟩ := p
    have hknotacc : k ∉ acc.map Prod.fst := by
      rcases List.nodup_append.mp h with ⟨_, _, hdisj⟩
      intro hk
      exact hdisj hk (List.mem_cons_self _ _)
    rw [List.foldl_cons]
    have hstep : insertAssoc acc (k, v).1 (k, v).2 = acc ++ [(k, v)] :=
      insertAssoc_of_not_mem acc k v hknotacc
    rw [hstep]
    have h2 : ((acc ++ [(k, v)]).map Prod.fst ++ rest.map Prod.fst).Nodup := by
      rw [List.map_append, List.append_assoc]
      simpa using h
    rw [ih (acc ++ [(k, v)]) h2]
    simp

/-- With a duplicate-free header, the record loop body produces exactly the
positional zip of header names against fields. -/
theorem buildRecord_eq_zip :
    ∀ (header fields : List String), header.Nodup → fields.length = header.length →
      buildRecord header fields = header.zip fields := by
  intro header fields hnodup hlen
  unfold buildRecord
  have hkeys : ((([] : List (String × String)).map Prod.fst) ++
      ((header.zip fields).map Prod.fst)).Nodup := by
    simp only [List.map_nil, List.nil_append]
    rw [List.map_fst_zip header fields (le_of_eq hlen.symm)]
    exact hnodup
  rw [foldl_insertAssoc (header.zip fields) [] hkeys]
  simp

/-- The record loop on clean full-length rows yields one zipped record per
row, in order. -/
theorem csvRecordLoop_ok :
    ∀ (header : List String) (rows : List (List String)),
      header.Nodup →
      (∀ r ∈ rows, r.length = header.length ∧ r ≠ [] ∧ ∀ f ∈ r, cleanField f) →
      csvRecordLoop header (rows.map rowLine) =
        .ok (rows.map (fun r => header.zip r)) := by
  intro header rows hnodup
  induction rows with
  | nil => intro _; rfl
  | cons r rest ih =>
    intro h
    obtain ⟨hlen, hne, hclean⟩ := h r (List.mem_cons_self r rest)
    rw [List.map_cons]
    simp only [csvRecordLoop, csvFields_rowLine r hne hclean,
      ih (fun x hx => h x (List.mem_cons_of_mem r hx)),
      buildRecord_eq_zip header r hnodup hlen, hlen]
    simp

/-- The record loop fails whenever some clean row has a field count
different from the header's. -/
theorem csvRecordLoop_error :
    ∀ (header : List String) (rows : List (List String)),
      (∀ r ∈ rows, r ≠ [] ∧ ∀ f ∈ r, cleanField f) →
      (∃ r ∈ rows, r.length ≠ header.length) →
      exOk (csvRecordLoop header (rows.map rowLine)) = false := by
  intro header rows
  induction rows with
  | nil =>
    intro _ hex
    rcases hex with ⟨r, hr, _⟩
    cases hr
  | cons r rest ih =>
    intro hclean hex
    obtain ⟨hne, hcf⟩ := hclean r (List.mem_cons_self r rest)
    rw [List.map_cons]
    simp only [csvRecordLoop, csvFields_rowLine r hne hcf]
    by_cases hlen : r.length = header.length
    · rw [if_pos hlen]
      have hex2 : ∃ x ∈ rest, x.length ≠ header.length := by
        rcases hex with ⟨x, hx, hxl⟩
        rcases List.mem_cons.mp hx with rfl | hx2
        · exact absurd hlen hxl
        · exact ⟨x, hx2, hxl⟩
      have hrest := ih (fun x hx => hclean x (List.mem_cons_of_mem r hx)) hex2
      cases hrec : csvRecordLoop header (rest.map rowLine) with
      | ok recs =>
        rw [hrec] at hrest
        exact absurd hrest (by simp [exOk])
      | error e => rfl
    · rw [if_neg hlen]
      rfl

/-- A clean table's CSV body normalizes to one JSON object per data row,
keys in header order, values the raw field strings. -/
theorem csvToJson_table :
    ∀ (header : List String) (rows : List (List String)),
      header.Nodup → header ≠ [] → (∀ f ∈ header, cleanField f) →
      (∀ r ∈ rows, r.length = header.length ∧ ∀ f ∈ r, cleanField f) →
      csvToJson (csvBodyOf (header :: rows)) =
        .ok (Json.arr (rows.map (fun r =>
          Json.obj ((header.zip r).map (fun p => (p.1, Json.str p.2)))))) := by
  intro header rows hnodup hne hcleanh hrows
  have hne_r : ∀ r ∈ rows, r ≠ [] := by
    intro r hr hnil
    have hlen := (hrows r hr).1
    rw [hnil] at hlen
    exact hne (List.length_eq_zero.mp hlen.symm)
  have hcleantbl : ∀ r ∈ header :: rows, r ≠ [] ∧ ∀ f ∈ r, cleanField f := by
    intro r hr
    rcases List.mem_cons.mp hr with rfl | hr2
    · exact ⟨hne, hcleanh⟩
    · exact ⟨hne_r r hr2, (hrows r hr2).2⟩
  unfold csvToJson parseCsvRecords
  rw [csvSplitRows_csvBodyOf (header :: rows) (by simp) hcleantbl, List.map_cons]
  simp only [csvFields_rowLine header hne hcleanh,
    csvRecordLoop_ok header rows hnodup
      (fun r hr => ⟨(hrows r hr).1, hne_r r hr, (hrows r hr).2⟩)]
  simp [List.map_map]

/-- C2: for a well-formed CSV body whose first row is the header (fields
free of separators and quoting, duplicate-free header, rows of the
header's width), the native `instruments` and `mf_instruments`
normalizers return one record per data row, in row order, each mapping
the i-th header name to the i-th field as an unconverted string, keys in
header order. -/
theorem instruments_tabular_normalization :
    ∀ (c : KiteConnect) (exchange : Option String) (header : List String)
      (rows : List (List String)),
      header.Nodup → header ≠ [] → (∀ f ∈ header, cleanField f) →
      (∀ r ∈ rows, r.length = header.length ∧ ∀ f ∈ r, cleanField f) →
      instruments c exchange (constNet ⟨200, csvBodyOf (header :: rows)⟩) =
        .ok (Json.arr (rows.map (fun r =>
          Json.obj ((header.zip r).map (fun p => (p.1, Json.str p.2)))))) ∧
      mf_instruments c (constNet ⟨200, csvBodyOf (header :: rows)⟩) =
        .ok (Json.arr (rows.map (fun r =>
          Json.obj ((header.zip r).map (fun p => (p.1, Json.str p.2)))))) := by
  intro c exchange header rows hnodup hne hcleanh hrows
  have hcsv := csvToJson_table header rows hnodup hne hcleanh hrows
  constructor
  · show csvToJson (csvBodyOf (header :: rows)) = _
    exact hcsv
  · show csvToJson (csvBodyOf (header :: rows)) = _
    exact hcsv

/-- C2 witness: header `a,b,c` with rows `1,2,3` and `4,5,6` yields the
two records in order, and likewise for `mf_instruments`. -/
theorem instruments_tabular_normalization_witness :
    instruments ⟨"key", "token", none⟩ none
        (constNet ⟨200, csvBodyOf [["a", "b", "c"], ["1", "2", "3"], ["4", "5", "6"]]⟩) =
      .ok (Json.arr
        [Json.obj [("a", Json.str "1"), ("b", Json.str "2"), ("c", Json.str "3")],
         Json.obj [("a", Json.str "4"), ("b", Json.str "5"), ("c", Json.str "6")]]) ∧
    mf_instruments ⟨"key", "token", none⟩
        (constNet ⟨200, csvBodyOf [["a", "b", "c"], ["1", "2", "3"], ["4", "5", "6"]]⟩) =
      .ok (Json.arr
        [Json.obj [("a", Json.str "1"), ("b", Json.str "2"), ("c", Json.str "3")],
         Json.obj [("a", Json.str "4"), ("b", Json.str "5"), ("c", Json.str "6")]]) := by
  have h := instruments_tabular_normalization ⟨"key", "token", none⟩ none
    ["a", "b", "c"] [["1", "2", "3"], ["4", "5", "6"]]
    (by decide) (by decide) (by decide) (by decide)
  exact ⟨h.1, h.2⟩

/-- C6 counterexample: on the CSV body `a,b,c\n1,2` — a data row with
fewer fields than the header — the `instruments` call does NOT succeed:
the default (non-flexible) CSV reader yields an unequal-lengths record
error which `?` propagates, so the whole call fails. -/
theorem instruments_short_row_counterexample :
    exOk (instruments ⟨"key", "token", none⟩ none (constNet ⟨200, "a,b,c\n1,2"⟩)) = false := by
  rfl

/-- C6 as amended: a data row with fewer fields than the header does not
panic and produces no partial record; instead the record iteration yields
an error which is propagated, so the whole `instruments` call fails. -/
theorem instruments_short_row_fails :
    ∀ (c : KiteConnect) (exchange : Option String) (header : List String)
      (rows : List (List String)),
      header ≠ [] → (∀ f ∈ header, cleanField f) →
      (∀ r ∈ rows, r ≠ [] ∧ ∀ f ∈ r, cleanField f) →
      (∃ r ∈ rows, r.length ≠ header.length) →
      exOk (instruments c exchange (constNet ⟨200, csvBodyOf (header :: rows)⟩)) = false := by
  intro c exchange header rows hne hcleanh hrows hex
  have hcleantbl : ∀ r ∈ header :: rows, r ≠ [] ∧ ∀ f ∈ r, cleanField f := by
    intro r hr
    rcases List.mem_cons.mp hr with rfl | hr2
    · exact ⟨hne, hcleanh⟩
    · exact hrows r hr2
  have hloop := csvRecordLoop_error header rows hrows hex
  show exOk (csvToJson (csvBodyOf (header :: rows))) = false
  unfold csvToJson parseCsvRecords
  rw [csvSplitRows_csvBodyOf (header :: rows) (by simp) hcleantbl, List.map_cons]
  simp only [csvFields_rowLine header hne hcleanh]
  cases hrec : csvRecordLoop header (rows.map rowLine) with
  | ok recs =>
    rw [hrec] at hloop
    exact absurd hloop (by simp [exOk])
  | error e => rfl

/-- C6 amended witness: header `a,b,c` with a full row `1,2,3` and a short
row `4,5` makes the whole call fail. -/
theorem instruments_short_row_fails_witness :
    exOk (instruments ⟨"key", "token", none⟩ none
      (constNet ⟨200, csvBodyOf [["a", "b", "c"], ["1", "2", "3"], ["4", "5"]]⟩)) = false := by
  exact instruments_short_row_fails ⟨"key", "token", none⟩ none
    ["a", "b", "c"] [["1", "2", "3"], ["4", "5"]]
    (by decide) (by decide) (by decide) ⟨["4", "5"], by decide, by decide⟩

/-! ### Form-urlencoding round-trip lemmas -/

/-- Characters with equal code points are equal. -/
theorem charToNat_injective : ∀ a b : Char, a.toNat = b.toNat → a = b :=
  fun _ _ h => Char.eq_of_val_eq (UInt32.ext h)

/-- Form-safe characters are ASCII. -/
theorem formSafe_toNat_lt : ∀ c : Char, formSafe c = true → c.toNat < 128 := by
  intro c h
  simp only [formSafe, Bool.or_eq_true, Char.isAlphanum, Char.isAlpha, Char.isDigit,
    Char.isUpper, Char.isLower, Bool.and_eq_true, decide_eq_true_eq] at h
  rcases h with ((((((⟨_, h2⟩ | ⟨_, h2⟩) | ⟨_, h2⟩) | rfl) | rfl) | rfl) | rfl)
  · exact Nat.lt_of_le_of_lt (show c.toNat ≤ 90 from h2) (by omega)
  · exact Nat.lt_of_le_of_lt (show c.toNat ≤ 122 from h2) (by omega)
  · exact Nat.lt_of_le_of_lt (show c.toNat ≤ 57 from h2) (by omega)
  · decide
  · decide
  · decide
  · decide

/-- Every character code point is below the Unicode bound. -/
theorem charToNat_lt : ∀ c : Char, c.toNat < 1114112 := by
  intro c
  rcases c.valid with h | ⟨_, h⟩
  · exact Nat.lt_trans h (by omega)
  · exact h

/-- ASCII characters UTF-8-encode to their single code-point byte. -/
theorem utf8EncChar_of_lt128 : ∀ c : Char, c.toNat < 128 → utf8EncChar c = [c.toNat] := by
  intro c h
  simp [utf8EncChar, h]

/-- Unfolding `charsBytes` over a cons. -/
theorem charsBytes_cons (c : Char) (cs : List Char) :
    charsBytes (c :: cs) = utf8EncChar c ++ charsBytes cs := rfl

/-- `catAll` distributes over append. -/
theorem catAll_append {α : Type} :
    ∀ xs ys : List (List α), catAll (xs ++ ys) = catAll xs ++ catAll ys := by
  intro xs ys
  induction xs with
  | nil => rfl
  | cons x rest ih => simp only [List.cons_append, catAll_cons, ih, List.append_assoc]

/-- `charsBytes` distributes over append. -/
theorem charsBytes_append (a b : List Char) :
    charsBytes (a ++ b) = charsBytes a ++ charsBytes b := by
  unfold charsBytes
  rw [List.map_append, catAll_append]

/-- Every output of `hexUpperChar` is one of the sixteen digits. -/
theorem hexUpperChar_mem : ∀ n : Nat, hexUpperChar n ∈ hexUpperChars := by
  intro n
  rcases Nat.lt_or_ge n 16 with h | h
  · interval_cases n <;> decide
  · have hlen : hexUpperChars.length ≤ n := by
      simp only [hexUpperChars, List.length_cons, List.length_nil]
      omega
    unfold hexUpperChar
    rw [List.getD_eq_default _ _ hlen]
    decide

/-- The sixteen uppercase hex digits are ASCII. -/
theorem hexUpperChars_toNat_lt : ∀ ch ∈ hexUpperChars, ch.toNat < 128 := by decide

/-- Percent-decoding a digit pair produced by `hexUpperChar` recovers the
nibble. -/
theorem percentHexVal_hexUpper :
    ∀ d : Nat, d < 16 → percentHexVal ((hexUpperChar d).toNat) = some d := by
  intro d h
  interval_cases d <;> decide

/-- The unfolding equation of `percentDecode` on a cons. -/
theorem percentDecode_cons (b : Nat) (bs : List Nat) :
    percentDecode (b :: bs) =
      (if b = 43 then 32 :: percentDecode bs
       else if b = 37 then
         match bs with
         | h1 :: h2 :: bs2 =>
           match percentHexVal h1, percentHexVal h2 with
           | some v1, some v2 => (v1 * 16 + v2) :: percentDecode bs2
           | _, _ => 37 :: h1 :: h2 :: percentDecode bs2
         | [h1] => [37, h1]
         | [] => [37]
       else b :: percentDecode bs) := by
  rw [percentDecode.eq_def]

/-- A plus byte decodes to a space. -/
theorem percentDecode_plus : ∀ bs : List Nat, percentDecode (43 :: bs) = 32 :: percentDecode bs := by
  intro bs
  rw [percentDecode_cons, if_pos rfl]

/-- A byte that is neither plus nor percent passes through. -/
theorem percentDecode_other :
    ∀ (b : Nat) (bs : List Nat), ¬b = 43 → ¬b = 37 →
      percentDecode (b :: bs) = b :: percentDecode bs := by
  intro b bs h43 h37
  rw [percentDecode_cons, if_neg h43, if_neg h37]

/-- A well-formed percent escape decodes to its byte. -/
theorem percentDecode_triple :
    ∀ (b : Nat) (bs : List Nat), b < 256 →
      percentDecode (37 :: (hexUpperChar (b / 16)).toNat :: (hexUpperChar (b % 16)).toNat :: bs) =
        b :: percentDecode bs := by
  intro b bs h
  have h1 := percentHexVal_hexUpper (b / 16) (by omega)
  have h2 := percentHexVal_hexUpper (b % 16) (by omega)
  rw [percentDecode_cons, if_neg (by decide), if_pos rfl]
  show (match percentHexVal ((hexUpperChar (b / 16)).toNat),
      percentHexVal ((hexUpperChar (b % 16)).toNat) with
    | some v1, some v2 => (v1 * 16 + v2) :: percentDecode bs
    | _, _ => 37 :: (hexUpperChar (b / 16)).toNat :: (hexUpperChar (b % 16)).toNat ::
        percentDecode bs) = b :: percentDecode bs
  rw [h1, h2]
  show (b / 16 * 16 + b % 16) :: percentDecode bs = b :: percentDecode bs
  have hb : b / 16 * 16 + b % 16 = b := by omega
  rw [hb]

/-- All bytes of a UTF-8 encoding are bytes. -/
theorem utf8EncChar_bytes_lt256 : ∀ (c : Char) (b : Nat), b ∈ utf8EncChar c → b < 256 := by
  intro c b hb
  have hn := charToNat_lt c
  simp only [utf8EncChar] at hb
  split at hb
  · simp only [List.mem_singleton] at hb
    omega
  · split at hb
    · simp only [List.mem_cons, List.mem_singleton, List.not_mem_nil, or_false] at hb
      rcases hb with rfl | rfl <;> omega
    · split at hb
      · simp only [List.mem_cons, List.mem_singleton, List.not_mem_nil, or_false] at hb
        rcases hb with rfl | rfl | rfl <;> omega
      · simp only [List.mem_cons, List.mem_singleton, List.not_mem_nil, or_false] at hb
        rcases hb with rfl | rfl | rfl | rfl <;> omega

/-- Decoding the percent escapes of a byte list recovers the bytes. -/
theorem percentDecode_percentBytes :
    ∀ (bs : List Nat) (tail : List Nat), (∀ b ∈ bs, b < 256) →
      percentDecode (charsBytes (catAll (bs.map percentByteChars)) ++ tail) =
        bs ++ percentDecode tail := by
  intro bs
  induction bs with
  | nil =>
    intro tail _
    show percentDecode ([] ++ tail) = [] ++ percentDecode tail
    rw [List.nil_append, List.nil_append]
  | cons b rest ih =>
    intro tail h
    have hb := h b (List.mem_cons_self b rest)
    rw [List.map_cons, catAll_cons, charsBytes_append, List.append_assoc]
    have hpb : charsBytes (percentByteChars b) =
        [37, (hexUpperChar (b / 16)).toNat, (hexUpperChar (b % 16)).toNat] := by
      show charsBytes ['%', hexUpperChar (b / 16), hexUpperChar (b % 16)] = _
      rw [charsBytes_cons, charsBytes_cons, charsBytes_cons,
        utf8EncChar_of_lt128 '%' (by decide),
        utf8EncChar_of_lt128 _ (hexUpperChars_toNat_lt _ (hexUpperChar_mem _)),
        utf8EncChar_of_lt128 _ (hexUpperChars_toNat_lt _ (hexUpperChar_mem _))]
      rfl
    rw [hpb]
    show percentDecode (37 :: (hexUpperChar (b / 16)).toNat :: (hexUpperChar (b % 16)).toNat ::
      (charsBytes (catAll (rest.map percentByteChars)) ++ tail)) = _
    rw [percentDecode_triple b _ hb, ih tail (fun x hx => h x (List.mem_cons_of_mem b hx))]
    rfl

/-- Decoding the encoding of one character prepends that character's UTF-8
bytes. -/
theorem percentDecode_encodeChar :
    ∀ (c : Char) (tail : List Nat),
      percentDecode (charsBytes (formEncodeChar c) ++ tail) =
        utf8EncChar c ++ percentDecode tail := by
  intro c tail
  by_cases hsafe : formSafe c = true
  · have henc : formEncodeChar c = [c] := by simp [formEncodeChar, hsafe]
    have hlt := formSafe_toNat_lt c hsafe
    have h43 : ¬c.toNat = 43 := by
      intro hh
      have : c = '+' := charToNat_injective c '+' (by rw [hh]; rfl)
      rw [this] at hsafe
      exact absurd hsafe (by decide)
    have h37 : ¬c.toNat = 37 := by
      intro hh
      have : c = '%' := charToNat_injective c '%' (by rw [hh]; rfl)
      rw [this] at hsafe
      exact absurd hsafe (by decide)
    rw [henc, charsBytes_cons, utf8EncChar_of_lt128 c hlt]
    show percentDecode (c.toNat :: ([] ++ tail)) = _
    rw [List.nil_append, percentDecode_other c.toNat tail h43 h37]
    rfl
  · by_cases hsp : c = ' '
    · subst hsp
      have henc : formEncodeChar ' ' = ['+'] := by decide
      rw [henc]
      show percentDecode (43 :: ([] ++ tail)) = _
      rw [List.nil_append, percentDecode_plus]
      rfl
    · have henc : formEncodeChar c = catAll ((utf8EncChar c).map percentByteChars) := by
        simp [formEncodeChar, hsafe, hsp]
      rw [henc, percentDecode_percentBytes (utf8EncChar c) tail
        (fun b hb => utf8EncChar_bytes_lt256 c b hb)]

/-- Decoding the encoding of a character list yields its UTF-8 bytes. -/
theorem percentDecode_encodeStr :
    ∀ (cs : List Char) (tail : List Nat),
      percentDecode (charsBytes (catAll (cs.map formEncodeChar)) ++ tail) =
        charsBytes cs ++ percentDecode tail := by
  intro cs
  induction cs with
  | nil =>
    intro tail
    show percentDecode ([] ++ tail) = [] ++ percentDecode tail
    rw [List.nil_append, List.nil_append]
  | cons c rest ih =>
    intro tail
    rw [List.map_cons, catAll_cons, charsBytes_append, List.append_assoc,
      percentDecode_encodeChar c _, ih tail, charsBytes_cons, List.append_assoc]

/-- The fuel of `utf8DecAux` is irrelevant once it covers the byte count. -/
theorem utf8DecAux_fuel_irrel :
    ∀ (f1 f2 : Nat) (bs : List Nat), bs.length ≤ f1 → bs.length ≤ f2 →
      utf8DecAux f1 bs = utf8DecAux f2 bs := by
  intro f1
  induction f1 with
  | zero =>
    intro f2 bs h1 _
    cases bs with
    | nil =>
      cases f2 with
      | zero => rfl
      | succ g => rfl
    | cons b bs2 => simp at h1
  | succ f ih =>
    intro f2 bs h1 h2
    cases bs with
    | nil =>
      cases f2 with
      | zero => rfl
      | succ g => rfl
    | cons b bs2 =>
      cases f2 with
      | zero => simp at h2
      | succ g =>
        simp only [List.length_cons] at h1 h2
        simp only [utf8DecAux]
        by_cases hb1 : b < 128
        · simp only [if_pos hb1]
          rw [ih g bs2 (by omega) (by omega)]
        · simp only [if_neg hb1]
          by_cases hb2 : b < 192
          · simp only [if_pos hb2]
            rw [ih g bs2 (by omega) (by omega)]
          · simp only [if_neg hb2]
            by_cases hb3 : b < 224
            · simp only [if_pos hb3]
              cases bs2 with
              | nil => rfl
              | cons b1 bs1 =>
                simp only [List.length_cons] at h1 h2
                by_cases hc : 128 ≤ b1 ∧ b1 < 192
                · simp only [if_pos hc]
                  rw [ih g bs1 (by omega) (by omega)]
                · simp only [if_neg hc]
                  rw [ih g (b1 :: bs1) (by simp; omega) (by simp; omega)]
            · simp only [if_neg hb3]
              by_cases hb4 : b < 240
              · simp only [if_pos hb4]
                cases bs2 with
                | nil =>
                  show repChar :: utf8DecAux f [] = repChar :: utf8DecAux g []
                  rw [ih g [] (by simp) (by simp)]
                | cons b1 bs1 =>
                  simp only [List.length_cons] at h1 h2
                  cases bs1 with
                  | nil => rw [ih g [b1] (by simp; omega) (by simp; omega)]
                  | cons b2 bs0 =>
                    simp only [List.length_cons] at h1 h2
                    by_cases hc : (128 ≤ b1 ∧ b1 < 192) ∧ (128 ≤ b2 ∧ b2 < 192)
                    · simp only [if_pos hc]
                      rw [ih g bs0 (by omega) (by omega)]
                    · simp only [if_neg hc]
                      rw [ih g (b1 :: b2 :: bs0) (by simp; omega) (by simp; omega)]
              · simp only [if_neg hb4]
                cases bs2 with
                | nil =>
                  show repChar :: utf8DecAux f [] = repChar :: utf8DecAux g []
                  rw [ih g [] (by simp) (by simp)]
                | cons b1 bs1 =>
                  simp only [List.length_cons] at h1 h2
                  cases bs1 with
                  | nil => rw [ih g [b1] (by simp; omega) (by simp; omega)]
                  | cons b2 bs0 =>
                    simp only [List.length_cons] at h1 h2
                    cases bs0 with
                    | nil => rw [ih g [b1, b2] (by simp; omega) (by simp; omega)]
                    | cons b3 bsr =>
                      simp only [List.length_cons] at h1 h2
                      by_cases hc : (128 ≤ b1 ∧ b1 < 192) ∧ (128 ≤ b2 ∧ b2 < 192) ∧
                        (128 ≤ b3 ∧ b3 < 192)
                      · simp only [if_pos hc]
                        rw [ih g bsr (by omega) (by omega)]
                      · simp only [if_neg hc]
                        rw [ih g (b1 :: b2 :: b3 :: bsr) (by simp; omega) (by simp; omega)]

/-- Lossy UTF-8 decoding inverts the UTF-8 encoding of one character. -/
theorem utf8DecLossy_enc :
    ∀ (c : Char) (bs : List Nat), utf8DecLossy (utf8EncChar c ++ bs) = c :: utf8DecLossy bs := by
  intro c bs
  have hn := charToNat_lt c
  have hofn : Char.ofNat c.toNat = c := Char.ofNat_toNat c
  by_cases h1 : c.toNat < 128
  · rw [utf8EncChar_of_lt128 c h1]
    show utf8DecAux (bs.length + 1) (c.toNat :: bs) = c :: utf8DecLossy bs
    simp only [utf8DecAux]
    rw [if_pos h1, hofn]
    rfl
  · by_cases h2 : c.toNat < 2048
    · have henc : utf8EncChar c = [192 + c.toNat / 64, 128 + c.toNat % 64] := by
        simp only [utf8EncChar]
        rw [if_neg h1, if_pos h2]
      rw [henc]
      show utf8DecAux (bs.length + 1 + 1)
        ((192 + c.toNat / 64) :: (128 + c.toNat % 64) :: bs) = c :: utf8DecLossy bs
      simp only [utf8DecAux]
      rw [if_neg (by omega), if_neg (by omega), if_pos (by omega),
        if_pos ⟨by omega, by omega⟩]
      have hval : (192 + c.toNat / 64 - 192) * 64 + (128 + c.toNat % 64 - 128) = c.toNat := by
        omega
      rw [hval, hofn, utf8DecAux_fuel_irrel (bs.length + 1) bs.length bs (by omega) (by omega)]
      rfl
    · by_cases h3 : c.toNat < 65536
      · have henc : utf8EncChar c =
            [224 + c.toNat / 4096, 128 + (c.toNat / 64) % 64, 128 + c.toNat % 64] := by
          simp only [utf8EncChar]
          rw [if_neg h1, if_neg h2, if_pos h3]
        rw [henc]
        show utf8DecAux (bs.length + 1 + 1 + 1) ((224 + c.toNat / 4096) ::
          (128 + (c.toNat / 64) % 64) :: (128 + c.toNat % 64) :: bs) = c :: utf8DecLossy bs
        simp only [utf8DecAux]
        rw [if_neg (by omega), if_neg (by omega), if_neg (by omega), if_pos (by omega),
          if_pos ⟨⟨by omega, by omega⟩, by omega, by omega⟩]
        have hval : (224 + c.toNat / 4096 - 224) * 4096 +
            (128 + (c.toNat / 64) % 64 - 128) * 64 + (128 + c.toNat % 64 - 128) = c.toNat := by
          omega
        rw [hval, hofn,
          utf8DecAux_fuel_irrel (bs.length + 1 + 1) bs.length bs (by omega) (by omega)]
        rfl
      · have henc : utf8EncChar c =
            [240 + c.toNat / 262144, 128 + (c.toNat / 4096) % 64,
             128 + (c.toNat / 64) % 64, 128 + c.toNat % 64] := by
          simp only [utf8EncChar]
          rw [if_neg h1, if_neg h2, if_neg h3]
        rw [henc]
        show utf8DecAux (bs.length + 1 + 1 + 1 + 1) ((240 + c.toNat / 262144) ::
          (128 + (c.toNat / 4096) % 64) :: (128 + (c.toNat / 64) % 64) ::
          (128 + c.toNat % 64) :: bs) = c :: utf8DecLossy bs
        simp only [utf8DecAux]
        rw [if_neg (by omega), if_neg (by omega), if_neg (by omega), if_neg (by omega),
          if_pos ⟨⟨by omega, by omega⟩, ⟨by omega, by omega⟩, by omega, by omega⟩]
        have hval : (240 + c.toNat / 262144 - 240) * 262144 +
            (128 + (c.toNat / 4096) % 64 - 128) * 4096 +
            (128 + (c.toNat / 64) % 64 - 128) * 64 + (128 + c.toNat % 64 - 128) = c.toNat := by
          omega
        rw [hval, hofn,
          utf8DecAux_fuel_irrel (bs.length + 1 + 1 + 1) bs.length bs (by omega) (by omega)]
        rfl

/-- Lossy UTF-8 decoding inverts `charsBytes`. -/
theorem utf8DecLossy_charsBytes : ∀ cs : List Char, utf8DecLossy (charsBytes cs) = cs := by
  intro cs
  induction cs with
  | nil => rfl
  | cons c rest ih => rw [charsBytes_cons, utf8DecLossy_enc, ih]

/-- Form-urlencoding round-trips every string. -/
theorem formDecodeStr_formEncodeStr : ∀ s : String, formDecodeStr (formEncodeStr s) = s := by
  intro s
  unfold formDecodeStr formEncodeStr
  have h := percentDecode_encodeStr s.data []
  rw [List.append_nil] at h
  rw [h]
  show String.mk (utf8DecLossy (charsBytes s.data ++ percentDecode [])) = s
  rw [show percentDecode [] = [] from rfl, List.append_nil, utf8DecLossy_charsBytes, mkData]

/-- Every character an encoded string contains is form-safe, a plus, a
percent, or an uppercase hex digit. -/
theorem formEncodeStr_chars :
    ∀ (s : String) (ch : Char), ch ∈ formEncodeStr s →
      formSafe ch = true ∨ ch = '+' ∨ ch = '%' ∨ ch ∈ hexUpperChars := by
  intro s ch h
  unfold formEncodeStr at h
  rcases mem_catAll _ _ h with ⟨xs, hxs, ha⟩
  rcases List.mem_map.mp hxs with ⟨c, _, rfl⟩
  by_cases hsafe : formSafe c = true
  · rw [show formEncodeChar c = [c] from by simp [formEncodeChar, hsafe]] at ha
    simp only [List.mem_singleton] at ha
    subst ha
    exact Or.inl hsafe
  · by_cases hsp : c = ' '
    · subst hsp
      rw [show formEncodeChar ' ' = ['+'] from by decide] at ha
      simp only [List.mem_singleton] at ha
      exact Or.inr (Or.inl ha)
    · rw [show formEncodeChar c = catAll ((utf8EncChar c).map percentByteChars) from by
        simp [formEncodeChar, hsafe, hsp]] at ha
      rcases mem_catAll _ _ ha with ⟨ys, hys, hb⟩
      rcases List.mem_map.mp hys with ⟨b, _, rfl⟩
      simp only [percentByteChars, List.mem_cons, List.not_mem_nil, or_false] at hb
      rcases hb with rfl | rfl | rfl
      · exact Or.inr (Or.inr (Or.inl rfl))
      · exact Or.inr (Or.inr (Or.inr (hexUpperChar_mem _)))
      · exact Or.inr (Or.inr (Or.inr (hexUpperChar_mem _)))

/-- The ampersand never occurs in an encoded component. -/
theorem amp_not_mem_formEncodeStr : ∀ s : String, '&' ∉ formEncodeStr s := by
  intro s h
  rcases formEncodeStr_chars s '&' h with h1 | h1 | h1 | h1
  · exact absurd h1 (by decide)
  · exact absurd h1 (by decide)
  · exact absurd h1 (by decide)
  · exact absurd h1 (by decide)

/-- The equals sign never occurs in an encoded component. -/
theorem eq_not_mem_formEncodeStr : ∀ s : String, '=' ∉ formEncodeStr s := by
  intro s h
  rcases formEncodeStr_chars s '=' h with h1 | h1 | h1 | h1
  · exact absurd h1 (by decide)
  · exact absurd h1 (by decide)
  · exact absurd h1 (by decide)
  · exact absurd h1 (by decide)

/-- `splitFirst` on a separator-free list finds nothing. -/
theorem splitFirst_not_mem :
    ∀ (sep : Char) (cs : List Char), sep ∉ cs → splitFirst sep cs = (cs, none) := by
  intro sep cs
  induction cs with
  | nil => intro _; rfl
  | cons c rest ih =>
    intro h
    have hc : ¬c = sep := fun hh => h (hh ▸ List.mem_cons_self c rest)
    have hrest : sep ∉ rest := fun hh => h (List.mem_cons_of_mem c hh)
    simp only [splitFirst, ih hrest]
    simp [hc]

/-- `splitFirst` splits at the first separator occurrence. -/
theorem splitFirst_append :
    ∀ (sep : Char) (pre post : List Char), sep ∉ pre →
      splitFirst sep (pre ++ sep :: post) = (pre, some post) := by
  intro sep pre
  induction pre with
  | nil =>
    intro post _
    simp [splitFirst]
  | cons c rest ih =>
    intro post h
    have hc : ¬c = sep := fun hh => h (hh ▸ List.mem_cons_self c rest)
    have hrest : sep ∉ rest := fun hh => h (List.mem_cons_of_mem c hh)
    rw [List.cons_append]
    simp only [splitFirst, ih post hrest]
    simp [hc]

/-- Parsing inverts serializing for one query pair. -/
theorem parsePair_formEncodePair : ∀ p : String × String, parsePair (formEncodePair p) = p := by
  intro p
  obtain ⟨k, v⟩ := p
  unfold parsePair formEncodePair
  rw [splitFirst_append '=' (formEncodeStr k) (formEncodeStr v) (eq_not_mem_formEncodeStr k)]
  simp [formDecodeStr_formEncodeStr]

/-- A serialized pair is never the empty segment. -/
theorem formEncodePair_ne_nil : ∀ p : String × String, formEncodePair p ≠ [] := by
  intro p
  unfold formEncodePair
  simp

/-- Parsing a serialized query recovers exactly the pairs, in order. -/
theorem parseQueryChars_serializePairs :
    ∀ ps : List (String × String), parseQueryChars (serializePairs ps) = ps := by
  intro ps
  cases ps with
  | nil => rfl
  | cons p rest =>
    unfold parseQueryChars serializePairs
    have hnomem : ∀ s ∈ (p :: rest).map formEncodePair, '&' ∉ s := by
      intro s hs hmem
      rcases List.mem_map.mp hs with ⟨q, _, rfl⟩
      unfold formEncodePair at hmem
      rw [List.mem_append] at hmem
      rcases hmem with hm | hm
      · exact amp_not_mem_formEncodeStr q.1 hm
      · rcases List.mem_cons.mp hm with hm2 | hm2
        · exact absurd hm2 (by decide)
        · exact amp_not_mem_formEncodeStr q.2 hm2
    rw [splitOnChar_joinSep '&' ((p :: rest).map formEncodePair) (by simp) hnomem]
    rw [filter_eq_self_of _ _ (by
      intro s hs
      rcases List.mem_map.mp hs with ⟨q, _, rfl⟩
      have hne := formEncodePair_ne_nil q
      cases hcase : formEncodePair q with
      | nil => exact absurd hcase hne
      | cons a b => rfl)]
    rw [List.map_map]
    exact map_eq_self_of _ _ (fun q _ => parsePair_formEncodePair q)

/-! ### URL parsing lemmas and the `build_url` claim -/

/-- Stripping a literal leading segment succeeds on that very segment. -/
theorem stripLead_append : ∀ p rest : List Char, stripLead p (p ++ rest) = some rest := by
  intro p
  induction p with
  | nil => intro rest; rfl
  | cons c ps ih =>
    intro rest
    rw [List.cons_append]
    show (if c = c then stripLead ps (ps ++ rest) else none) = some rest
    rw [if_pos rfl]
    exact ih rest

/-- Parsing the base origin followed by a query-free, fragment-free path
yields exactly that path with no query. -/
theorem parseUrl_base_path :
    ∀ t : List Char, '#' ∉ t → '?' ∉ t →
      parseUrl (String.mk ("https://api.kite.trade".data ++ '/' :: t)) =
        some ⟨"https", "api.kite.trade", String.mk ('/' :: t), none⟩ := by
  intro t h1 h2
  unfold parseUrl
  have hdata : (String.mk ("https://api.kite.trade".data ++ '/' :: t)).data =
      "https://".data ++ ("api.kite.trade".data ++ '/' :: t) := by
    show "https://api.kite.trade".data ++ '/' :: t = _
    rw [show "https://api.kite.trade".data = "https://".data ++ "api.kite.trade".data from by
      decide]
    rw [List.append_assoc]
  have hsf1 : splitFirst '/' ("api.kite.trade".data ++ '/' :: t) =
      ("api.kite.trade".data, some t) := splitFirst_append '/' _ t (by decide)
  have hsf2 : splitFirst '#' t = (t, none) := splitFirst_not_mem '#' t h1
  have hsf3 : splitFirst '?' t = (t, none) := splitFirst_not_mem '?' t h2
  rw [hdata, stripLead_append]
  simp only [hsf1, hsf2, hsf3]
  rfl

/-- C8 as amended: for every path that begins with a slash and consists of
URL-path-safe characters (alphanumerics, slashes, hyphens, underscores —
in particular no question mark, hash, or characters needing
percent-encoding), and every ordered list of query key/value pairs
(repeated keys allowed), the URL built by `build_url` parses back into
the base origin, the same path, and the same query pairs in the same
order. -/
theorem build_url_path_query_roundtrip :
    ∀ (c : KiteConnect) (path : String) (ps : List (String × String)),
      path.data.head? = some '/' →
      (∀ ch ∈ path.data, pathSafeChar ch = true) →
      (c.build_url path (some ps)).origin = baseURL ∧
      (c.build_url path (some ps)).path = path ∧
      (c.build_url path (some ps)).queryPairs = ps := by
  intro c path ps hhead hsafe
  cases hd : path.data with
  | nil => rw [hd] at hhead; cases hhead
  | cons c0 t =>
    rw [hd] at hhead
    simp only [List.head?_cons, Option.some.injEq] at hhead
    subst hhead
    have hsafeT : ∀ ch ∈ t, pathSafeChar ch = true := fun ch hch =>
      hsafe ch (by rw [hd]; exact List.mem_cons_of_mem _ hch)
    have hq : '?' ∉ t := fun hmem => absurd (hsafeT '?' hmem) (by decide)
    have hhash : '#' ∉ t := fun hmem => absurd (hsafeT '#' hmem) (by decide)
    have hfull : baseURL ++ "/" ++ strTail path =
        String.mk ("https://api.kite.trade".data ++ '/' :: t) := by
      rw [← mkData (baseURL ++ "/" ++ strTail path)]
      show String.mk ((baseURL ++ "/" ++ strTail path).data) = _
      rw [String.data_append, String.data_append]
      show String.mk (baseURL.data ++ "/".data ++ path.data.drop 1) = _
      rw [hd]
      rfl
    have hparse : parseUrl (baseURL ++ "/" ++ strTail path) =
        some ⟨"https", "api.kite.trade", String.mk ('/' :: t), none⟩ := by
      rw [hfull]
      exact parseUrl_base_path t hhash hq
    have hmkpath : String.mk ('/' :: t) = path := by rw [← hd, mkData]
    have hbuild : c.build_url path (some ps) =
        Url.extendQueryPairs ⟨"https", "api.kite.trade", String.mk ('/' :: t), none⟩ ps := by
      unfold KiteConnect.build_url
      rw [hparse]
      rfl
    rw [hbuild]
    unfold Url.extendQueryPairs
    refine ⟨by rfl, hmkpath, ?_⟩
    show Url.queryPairs ⟨"https", "api.kite.trade", String.mk ('/' :: t),
      some (String.mk (serializePairs ps))⟩ = ps
    unfold Url.queryPairs
    show parseQueryChars (String.mk (serializePairs ps)).data = ps
    exact parseQueryChars_serializePairs ps

/-- C8 amended witness: the trigger-range path with a repeated
`instruments` query key round-trips, preserving origin, path and the
order of the repeated keys. -/
theorem build_url_path_query_roundtrip_witness :
    (KiteConnect.build_url ⟨"key", "token", none⟩ "/instruments/trigger_range"
        (some [("transaction_type", "BUY"), ("instruments", "NSE:INFY"),
               ("instruments", "NSE:RELIANCE")])).origin = baseURL ∧
    (KiteConnect.build_url ⟨"key", "token", none⟩ "/instruments/trigger_range"
        (some [("transaction_type", "BUY"), ("instruments", "NSE:INFY"),
               ("instruments", "NSE:RELIANCE")])).path = "/instruments/trigger_range" ∧
    (KiteConnect.build_url ⟨"key", "token", none⟩ "/instruments/trigger_range"
        (some [("transaction_type", "BUY"), ("instruments", "NSE:INFY"),
               ("instruments", "NSE:RELIANCE")])).queryPairs =
      [("transaction_type", "BUY"), ("instruments", "NSE:INFY"),
       ("instruments", "NSE:RELIANCE")] := by
  exact build_url_path_query_roundtrip ⟨"key", "token", none⟩ "/instruments/trigger_range"
    [("transaction_type", "BUY"), ("instruments", "NSE:INFY"), ("instruments", "NSE:RELIANCE")]
    (by decide) (by decide)

/-- C8 counterexample: the claim as stated quantifies over every path
beginning with a slash, but for the path `/a?b` the produced URL parses
back with path `/a` (the question mark starts the query) and with an
extra leading query pair, so neither the path nor the query pairs
round-trip. -/
theorem build_url_counterexample :
    (KiteConnect.build_url ⟨"key", "token", none⟩ "/a?b"
      (some [("x", "y")])).path ≠ "/a?b" ∧
    (KiteConnect.build_url ⟨"key", "token", none⟩ "/a?b"
      (some [("x", "y")])).queryPairs ≠ [("x", "y")] := by
  decide

end Kite
